import Mathlib

/-!
The SFMT command-line driver (`SFMT-src-1.5.1/main.c`)

A shallow embedding of `main`: the option scan over `argv`, the sizing of the
bulk buffer with its two size checks, the seeding of the generator and the
four emission paths (per-value or bulk, 32 or 64 bit).

The generator itself (`SFMT.h`, `SFMT.c`) is not part of the sources at hand.
It enters as a parameter, `Engine`, holding the operations `main` calls.
C `int` values are integers within the 32-bit range here: `atoi` returns
such a value, and no arithmetic of `main` can leave the range after that.
-/

namespace SfmtMain

/-! ## The C library: `atoi` -/

/-- The C `isspace` on the characters `atoi` skips: blank, and `\t \n \v \f \r`. -/
def isspace (c : Char) : Bool :=
  c.toNat == 32 || (9 ≤ c.toNat && c.toNat ≤ 13)

/-- The C `isdigit`. -/
def isdigit (c : Char) : Bool :=
  48 ≤ c.toNat && c.toNat ≤ 57

/-- The value of the longest run of decimal digits at the head of the text,
accumulated from left to right. -/
def atoi_digits : List Char → Nat → Nat
  | [], acc => acc
  | c :: cs, acc =>
    if isdigit c then atoi_digits cs (10 * acc + (c.toNat - 48)) else acc

/-- The conversion of a value to the 32-bit `int`: values in the range
`-2^31 .. 2^31 - 1` are kept, others wrap around modulo `2^32`. -/
def to_int32 (x : Int) : Int :=
  (x + 2147483648) % 4294967296 - 2147483648

/-- The C library `atoi`: leading white space is skipped, one sign is read,
then decimal digits up to the first other character; no digits give 0.  The
result is an `int`: a digit run whose value does not fit is wrapped to 32
bits (C leaves that case undefined; this is what the usual conversion of the
longer value to `int` gives, so that `4294967328` reads as 32). -/
def atoi (s : String) : Int :=
  match s.toList.dropWhile isspace with
  | [] => 0
  | c :: cs =>
    if c.toNat = 45 then to_int32 (- (atoi_digits cs 0 : Int))
    else if c.toNat = 43 then to_int32 (atoi_digits cs 0 : Int)
    else to_int32 (atoi_digits (c :: cs) 0 : Int)

/-! ## The generator, as `main` uses it -/

/-- The operations of `SFMT.h` that `main` calls, over a state type `σ`
(the contents of `sfmt_t`).  A bulk fill stores exactly `size` words. -/
structure Engine (σ : Type) where
  /-- `sfmt_get_min_array_size32` -/
  min_array_size32 : Int
  /-- `sfmt_get_min_array_size64` -/
  min_array_size64 : Int
  /-- `sfmt_get_idstring` -/
  idstring : String
  /-- `sfmt_init_gen_rand(&sfmt, seed)`: the state it leaves, as a function of
  the `int` that `main` passes (the conversion to the parameter type of the
  header is the engine's). -/
  init_gen_rand : Int → σ
  /-- `sfmt_init_by_array(&sfmt, init_key, key_length)`: the state it leaves. -/
  init_by_array : List Nat → Int → σ
  /-- `sfmt_genrand_uint32(&sfmt)`: the value drawn and the state after. -/
  genrand_uint32 : σ → Nat × σ
  /-- `sfmt_genrand_uint64(&sfmt)`: the value drawn and the state after. -/
  genrand_uint64 : σ → Nat × σ
  /-- `sfmt_fill_array32(&sfmt, array, size)`: the words stored in
  `array[0 .. size-1]` and the state after. -/
  fill_array32 : σ → Int → List Nat × σ
  /-- `sfmt_fill_array64(&sfmt, array, size)`: likewise, 64-bit words. -/
  fill_array64 : σ → Int → List Nat × σ
  /-- a 32-bit fill stores `size` words -/
  fill_array32_length : ∀ s size, (fill_array32 s size).1.length = size.toNat
  /-- a 64-bit fill stores `size` words -/
  fill_array64_length : ∀ s size, (fill_array64 s size).1.length = size.toNat

/-- The minimum of the engine for a width: `sfmt_get_min_array_size32` for
32, `sfmt_get_min_array_size64` otherwise. -/
def min_array_size (bit m32 m64 : Int) : Int :=
  if bit = 32 then m32 else m64

/-! ## What a run does -/

/-- The observable steps of a run, in the order they happen: what is printed
and which generator operation is called. -/
inductive Event where
  /-- `printf("ERROR: unknown option '%s'\n", argv[i])` -/
  | unknown_option (arg : String)
  /-- `printf("ERROR: -b should be 32 or 64")` -/
  | bit_error
  /-- `printf("buffer size too small!: %d/%d\n", buffer_size, min)` -/
  | buffer_too_small (buffer_size required : Int)
  /-- `printf("%s\n%d bit generated randoms\n", idstring, bit)` -/
  | header (idstring : String) (bit : Int)
  /-- call of `sfmt_init_gen_rand` -/
  | init_gen_rand (seed : Int)
  /-- call of `sfmt_init_by_array` -/
  | init_by_array (init_key : List Nat) (key_length : Int)
  /-- call of `sfmt_genrand_uint32` -/
  | genrand_uint32
  /-- call of `sfmt_genrand_uint64` -/
  | genrand_uint64
  /-- call of `sfmt_fill_array32` with this size -/
  | fill_array32 (size : Int)
  /-- call of `sfmt_fill_array64` with this size -/
  | fill_array64 (size : Int)
  /-- one value line printed; `none` when the word printed was read at an
  index outside the allocated buffer, where C defines no value -/
  | value (v : Option Nat)
  deriving DecidableEq, Repr

/-- How the process ends: `EXIT_SUCCESS` or `EXIT_FAILURE`. -/
inductive Exit where
  | success
  | failure
  deriving DecidableEq, Repr

/-- A finished run. -/
structure Run where
  trace : List Event
  exit : Exit
  deriving DecidableEq, Repr

/-- The value lines of a trace, in order. -/
def values : List Event → List (Option Nat)
  | [] => []
  | Event.value v :: es => v :: values es
  | _ :: es => values es

/-- Whether the event is a call of a generator operation. -/
def Event.is_call : Event → Bool
  | Event.init_gen_rand _ => true
  | Event.init_by_array _ _ => true
  | Event.genrand_uint32 => true
  | Event.genrand_uint64 => true
  | Event.fill_array32 _ => true
  | Event.fill_array64 _ => true
  | _ => false

/-- The generator calls of a trace, in order. -/
def calls (tr : List Event) : List Event :=
  tr.filter Event.is_call

/-! ## The option scan (lines 11-47) -/

/-- The local variables of `main` that the option scan sets. -/
structure Vars where
  count : Int
  seed : Int
  bit : Int
  each : Int
  /-- `NULL` is `none` -/
  seed_array : Option (List Nat)
  seed_array_size : Int
  deriving DecidableEq, Repr

/-- The initial values of lines 11-17. -/
def Vars.init : Vars :=
  { count := 1, seed := 0, bit := 32, each := 0, seed_array := none, seed_array_size := 0 }

/-- The result of one pass through the loop body. -/
inductive Step where
  /-- `exit(EXIT_FAILURE)` after printing -/
  | exit (printed : List Event)
  /-- the loop goes on; `skip` tells that the body did `i++`, so that the
  next argument is passed over -/
  | next (printed : List Event) (v : Vars) (skip : Bool)
  deriving DecidableEq, Repr

/-- The loop body (lines 20-46) at `arg = argv[i]`, where `nxt` is
`argv[i+1]` when `i+1 < argc`. -/
def scan_body (arg : String) (nxt : Option String) (v : Vars) : Step :=
  match nxt with
  | some a1 =>
    if arg = "-n" then
      Step.next [] { v with count := atoi a1 } true
    else if arg = "-s" ∨ arg = "--seed" then
      Step.next [] { v with seed := atoi a1 } true
    else if arg = "--seed-array" then
      Step.next []
        { v with seed_array := some [0x01234567, 0x89ABCDEF, 0xFEDCBA98, 0x76543210],
                 seed_array_size := 4 } false
    else if arg = "-b" ∨ arg = "--bit" then
      if atoi a1 ≠ 32 ∧ atoi a1 ≠ 64 then
        Step.exit [Event.bit_error]
      else
        Step.next [] { v with bit := atoi a1 } true
    else if arg = "-e" ∨ arg = "--each" then
      Step.next [] { v with each := 1 } false
    else
      Step.next [Event.unknown_option arg] v false
  | none =>
    if arg = "-e" ∨ arg = "--each" then
      Step.next [] { v with each := 1 } false
    else
      Step.next [Event.unknown_option arg] v false

/-- The loop `for(i = 0; i<argc; i++)` over the arguments not yet looked at.
With `skip` set the first of them was taken as the value of the option
before it and is passed over.  The result is what was printed and the
variables at the end of the loop, `none` when the body left through
`exit(EXIT_FAILURE)`. -/
def scan_from : Bool → List String → Vars → List Event × Option Vars
  | _, [], v => ([], some v)
  | true, _ :: rest, v => scan_from false rest v
  | false, arg :: rest, v =>
    match scan_body arg rest.head? v with
    | Step.exit printed => (printed, none)
    | Step.next printed v1 skip =>
      let r := scan_from skip rest v1
      (printed ++ r.1, r.2)

/-- The whole option scan, from `i = 0`. -/
def scan (argv : List String) : List Event × Option Vars :=
  scan_from false argv Vars.init

/-- The passes of the loop as a step relation: `Reaches argv rest v printed`
holds when the loop, started on `argv` with the initial variables, comes to
begin a pass with the arguments `rest` still ahead (`rest` is `argv[i..]`),
the variables being `v` and `printed` having been printed so far.  This is
how an argument is told to be looked at as an option, rather than passed
over as the value of the option before it. -/
inductive Reaches (argv : List String) : List String → Vars → List Event → Prop where
  | start : Reaches argv argv Vars.init []
  | pass {arg : String} {rest : List String} {v v1 : Vars} {printed out : List Event}
      {skip : Bool} :
      Reaches argv (arg :: rest) v printed →
      scan_body arg rest.head? v = Step.next out v1 skip →
      Reaches argv (bif skip then rest.tail else rest) v1 (printed ++ out)

/-! ## Buffer sizing and the size checks (lines 49-63) -/

/-- Lines 49-54: `buffer_size = count`, raised to
`sfmt_get_min_array_size32` when below it, then `buffer_size / 4 * 4` with
the division of C, which truncates toward zero. -/
def buffer_size (count m32 : Int) : Int :=
  Int.tdiv (if count < m32 then m32 else count) 4 * 4

/-- Lines 49-63: the buffer size, or the report of the size check that
stopped the run. -/
def resolve (count bit m32 m64 : Int) : Except Event Int :=
  if bit = 32 ∧ m32 > buffer_size count m32 then
    Except.error (Event.buffer_too_small (buffer_size count m32) m32)
  else if bit = 64 ∧ m64 > buffer_size count m32 then
    Except.error (Event.buffer_too_small (buffer_size count m32) m64)
  else
    Except.ok (buffer_size count m32)

/-! ## Seeding and emission (lines 64-101) -/

/-- Lines 66-70: the call that seeds the generator, and the state it leaves. -/
def seeding {σ : Type} (E : Engine σ) (v : Vars) : Event × σ :=
  match v.seed_array with
  | none => (Event.init_gen_rand v.seed, E.init_gen_rand v.seed)
  | some key => (Event.init_by_array key v.seed_array_size,
                 E.init_by_array key v.seed_array_size)

/-- The loop `for (i = 0; i < count; i++) printf(.., draw(&sfmt))` with `n`
passes left: each pass calls the draw and prints its result. -/
def each_loop {σ : Type} (draw : σ → Nat × σ) (call : Event) : Nat → σ → List Event
  | 0, _ => []
  | n + 1, s => call :: Event.value (some (draw s).1) :: each_loop draw call n (draw s).2

/-- The loop `for (i = 0; i < count; i++) printf(.., array[i])` from index
`i` with `n` passes left, over a buffer holding the words `array`. -/
def array_loop (array : List Nat) : Nat → Nat → List Event
  | _, 0 => []
  | i, n + 1 => Event.value array[i]? :: array_loop array (i + 1) n

/-- Lines 71-101 from the seeded state `s`, with the buffer size `bs`. -/
def emit {σ : Type} (E : Engine σ) (v : Vars) (bs : Int) (s : σ) : List Event :=
  if v.each ≠ 0 then
    if v.bit = 32 then
      each_loop E.genrand_uint32 Event.genrand_uint32 v.count.toNat s
    else if v.bit = 64 then
      each_loop E.genrand_uint64 Event.genrand_uint64 v.count.toNat s
    else []
  else if v.bit = 32 then
    Event.fill_array32 bs :: array_loop (E.fill_array32 s bs).1 0 v.count.toNat
  else if v.bit = 64 then
    Event.fill_array64 bs :: array_loop (E.fill_array64 s bs).1 0 v.count.toNat
  else []

/-- Lines 49-106: everything after the option scan. -/
def generate {σ : Type} (E : Engine σ) (v : Vars) : Run :=
  match resolve v.count v.bit E.min_array_size32 E.min_array_size64 with
  | Except.error report => { trace := [report], exit := Exit.failure }
  | Except.ok bs =>
    { trace := Event.header E.idstring v.bit :: (seeding E v).1 :: emit E v bs (seeding E v).2,
      exit := Exit.success }

/-- The program: the option scan, then the generation. -/
def main {σ : Type} (E : Engine σ) (argv : List String) : Run :=
  match scan argv with
  | (printed, none) => { trace := printed, exit := Exit.failure }
  | (printed, some v) =>
    { trace := printed ++ (generate E v).trace, exit := (generate E v).exit }

/-! ## A small engine to run the program on -/

/-- `n` successive single draws from state `s`: the values, and the state
after the last. -/
def draws {σ : Type} (draw : σ → Nat × σ) : Nat → σ → List Nat × σ
  | 0, s => ([], s)
  | n + 1, s => ((draw s).1 :: (draws draw n (draw s).2).1, (draws draw n (draw s).2).2)

/-- A counter with the minimums of SFMT-19937 (624 words of 32 bit, 312 of
64 bit): the state is the next value, a draw returns it and adds one, a
fill stores the next `size` values. -/
def counter : Engine Nat where
  min_array_size32 := 624
  min_array_size64 := 312
  idstring := "counter"
  init_gen_rand := fun seed => seed.toNat
  init_by_array := fun key _ => key.sum
  genrand_uint32 := fun s => (s, s + 1)
  genrand_uint64 := fun s => (s, s + 1)
  fill_array32 := fun s size => (List.range' s size.toNat, s + size.toNat)
  fill_array64 := fun s size => (List.range' s size.toNat, s + size.toNat)
  fill_array32_length := by intro s size; simp
  fill_array64_length := by intro s size; simp

/-- The counter with minimums that are no multiples of 4 (626 and 313), to
run the size checks into their error branch. -/
def skewed : Engine Nat :=
  { counter with min_array_size32 := 626, min_array_size64 := 313 }

/-! ## The plan a scan amounts to -/

/-- The option spellings that the loop body compares `argv[i]` with. -/
def option_spellings : List String :=
  ["-n", "-s", "--seed", "--seed-array", "-b", "--bit", "-e", "--each"]

/-- The words that line 28-31 store into `seed_array`. -/
def fixed_seed_array : List Nat :=
  [0x01234567, 0x89ABCDEF, 0xFEDCBA98, 0x76543210]

/-- How the generator gets seeded, as lines 66-70 decide it: by the scalar
`seed` when `seed_array` is `NULL`, by the array and its size otherwise. -/
inductive SeedMode where
  | scalar (seed : Int)
  | array (key : List Nat) (size : Int)
  deriving DecidableEq, Repr

/-- The seed mode that the variables stand for. -/
def seed_mode (v : Vars) : SeedMode :=
  match v.seed_array with
  | none => SeedMode.scalar v.seed
  | some key => SeedMode.array key v.seed_array_size

/-! ## Arithmetic of the rounding `x / 4 * 4` -/

theorem tdiv4_mul4_eq (x : Int) : Int.tdiv x 4 * 4 = x - Int.tmod x 4 := by
  have h := Int.tmod_add_tdiv' x 4
  omega

theorem tdiv4_mul4_of_nonneg {x : Int} (hx : 0 ≤ x) : Int.tdiv x 4 * 4 = x / 4 * 4 := by
  rw [Int.tdiv_eq_ediv hx (by decide)]

theorem tdiv4_mul4_le {x : Int} (hx : 0 ≤ x) : Int.tdiv x 4 * 4 ≤ x ∧ x < Int.tdiv x 4 * 4 + 4 := by
  rw [tdiv4_mul4_of_nonneg hx]
  omega

theorem tdiv4_mul4_ge {x : Int} (hx : x ≤ 0) : x ≤ Int.tdiv x 4 * 4 ∧ Int.tdiv x 4 * 4 < x + 4 := by
  have h : Int.tdiv x 4 = - (Int.tdiv (-x) 4) := by
    rw [Int.neg_tdiv, Int.neg_neg]
  rw [h, Int.tdiv_eq_ediv (by omega) (by decide)]
  omega

theorem tdiv4_mul4_of_dvd {x : Int} (hx : x % 4 = 0) : Int.tdiv x 4 * 4 = x :=
  Int.tdiv_mul_cancel (Int.dvd_of_emod_eq_zero hx)

theorem buffer_size_emod (count m32 : Int) : buffer_size count m32 % 4 = 0 := by
  unfold buffer_size
  exact Int.mul_emod_left _ _

theorem buffer_size_tmod (count m32 : Int) : Int.tmod (buffer_size count m32) 4 = 0 := by
  unfold buffer_size
  exact Int.mul_tmod_left _ _

/-! ## The values `atoi` returns -/

theorem to_int32_range (x : Int) : -2147483648 ≤ to_int32 x ∧ to_int32 x < 2147483648 := by
  unfold to_int32
  omega

theorem to_int32_of_range (x : Int) (h : -2147483648 ≤ x ∧ x < 2147483648) :
    to_int32 x = x := by
  unfold to_int32
  omega

theorem atoi_range (s : String) : -2147483648 ≤ atoi s ∧ atoi s < 2147483648 := by
  unfold atoi
  split
  · decide
  · split_ifs <;> exact to_int32_range _

theorem atoi_examples :
    atoi "625" = 625 ∧ atoi " -12x" = -12 ∧ atoi "sixty-four" = 0 ∧
    atoi "2147483647" = 2147483647 ∧ atoi "-2147483648" = -2147483648 ∧
    atoi "4294967328" = 32 ∧ atoi "4294967296" = 0 := by
  decide

/-! ## The size checks -/

theorem resolve_ok_eq {count bit m32 m64 bs : Int}
    (h : resolve count bit m32 m64 = Except.ok bs) : bs = buffer_size count m32 := by
  unfold resolve at h
  split_ifs at h
  exact (Except.ok.inj h).symm

theorem resolve_of_le {count bit m32 m64 : Int} (hbit : bit = 32 ∨ bit = 64)
    (h : min_array_size bit m32 m64 ≤ buffer_size count m32) :
    resolve count bit m32 m64 = Except.ok (buffer_size count m32) := by
  unfold min_array_size at h
  unfold resolve
  rcases hbit with rfl | rfl
  · rw [if_pos rfl] at h
    rw [if_neg (by omega), if_neg (by omega)]
  · rw [if_neg (by decide)] at h
    rw [if_neg (by omega), if_neg (by omega)]

theorem resolve_of_lt {count bit m32 m64 : Int} (hbit : bit = 32 ∨ bit = 64)
    (h : buffer_size count m32 < min_array_size bit m32 m64) :
    resolve count bit m32 m64 =
      Except.error (Event.buffer_too_small (buffer_size count m32) (min_array_size bit m32 m64)) := by
  rcases hbit with rfl | rfl
  · have h1 : buffer_size count m32 < m32 := by simpa [min_array_size] using h
    simp [resolve, min_array_size, h1]
  · have h1 : buffer_size count m32 < m64 := by simpa [min_array_size] using h
    simp [resolve, min_array_size, h1]

/-! ## The emission loops -/

theorem array_loop_getElem? (array : List Nat) (n i k : Nat) :
    (array_loop array i n)[k]? = if k < n then some (Event.value array[i + k]?) else none := by
  induction n generalizing i k with
  | zero => simp [array_loop]
  | succ m ih =>
    cases k with
    | zero => simp [array_loop]
    | succ j =>
      simp only [array_loop, List.getElem?_cons_succ, ih]
      have e : i + 1 + j = i + (j + 1) := by omega
      rw [e]
      by_cases hj : j < m
      · rw [if_pos hj, if_pos (by omega)]
      · rw [if_neg hj, if_neg (by omega)]

theorem array_loop_length (array : List Nat) (n i : Nat) :
    (array_loop array i n).length = n := by
  induction n generalizing i with
  | zero => rfl
  | succ m ih => simp [array_loop, ih]

theorem values_array_loop (array : List Nat) (n i : Nat) :
    values (array_loop array i n) = (List.range' i n).map (fun j => array[j]?) := by
  induction n generalizing i with
  | zero => rfl
  | succ m ih => simp [array_loop, values, ih, List.range'_succ]

theorem array_loop_in_bounds (array : List Nat) (n : Nat) (h : n ≤ array.length) :
    array_loop array 0 n = (array.take n).map (fun x => Event.value (some x)) := by
  apply List.ext_getElem?
  intro k
  rw [array_loop_getElem?]
  by_cases hk : k < n
  · have hk2 : k < array.length := by omega
    simp [hk, List.getElem?_take, List.getElem?_eq_getElem hk2]
  · simp [hk, List.getElem?_take]

/-! ## Claims on the buffer size -/

/-- C1, where the code departs from the claim: with the minimums 624 and 312
of SFMT-19937, count 625 and width 32 pass both size checks with a buffer of
624 words, one fewer than the count, and the emission loop of the bulk path
then prints `array[624]` of a 624-word block: a read outside the buffer. -/
theorem bulk_count_exceeds_buffer :
    resolve 625 32 624 312 = Except.ok 624 ∧ ¬ ((625 : Int) ≤ 624) ∧
    ∀ block : List Nat, block.length = 624 →
      (array_loop block 0 (625 : Int).toNat)[624]? = some (Event.value none) := by
  refine ⟨rfl, by decide, ?_⟩
  intro block hlen
  rw [array_loop_getElem?]
  have h : block[0 + 624]? = none := by
    rw [List.getElem?_eq_none_iff]
    omega
  rw [h]
  rfl

/-- C3 as stated fails: at width 64 with the minimums 624 and 312, count 400
is at least the 64-bit minimum and a multiple of 4, yet the resolved buffer
size is 624, not 400. -/
theorem exact_size_fails_at_width64 :
    min_array_size 64 624 312 ≤ 400 ∧ (400 : Int) % 4 = 0 ∧
    resolve 400 64 624 312 = Except.ok 624 ∧ resolve 400 64 624 312 ≠ Except.ok 400 := by
  refine ⟨by decide, by decide, rfl, ?_⟩
  intro h
  have := resolve_ok_eq h
  revert this
  decide

/-- C3 amended: for either width, a count that is a multiple of 4, at least
the 32-bit minimum and at least the minimum of the selected width resolves
to a buffer size equal to the count. -/
theorem exact_size_above_min32 (count bit m32 m64 : Int) (hbit : bit = 32 ∨ bit = 64)
    (h32 : m32 ≤ count) (hw : min_array_size bit m32 m64 ≤ count) (h4 : count % 4 = 0) :
    resolve count bit m32 m64 = Except.ok count := by
  have hb : buffer_size count m32 = count := by
    unfold buffer_size
    rw [if_neg (by omega)]
    exact tdiv4_mul4_of_dvd h4
  have h := @resolve_of_le count bit m32 m64 hbit (by rw [hb]; exact hw)
  rw [hb] at h
  exact h

theorem exact_size_above_min32_witness :
    resolve 624 64 624 312 = Except.ok 624 :=
  exact_size_above_min32 624 64 624 312 (Or.inr rfl) (by decide) (by decide) (by decide)

/-- C4 as stated fails: at width 64 with the minimums 624 and 312, count 1 is
below the 64-bit minimum, yet the buffer size is 624, the 32-bit minimum, and
not the 64-bit minimum 312 rounded to a multiple of 4. -/
theorem raise_uses_min32_at_width64 :
    (1 : Int) < min_array_size 64 624 312 ∧ resolve 1 64 624 312 = Except.ok 624 ∧
    (624 : Int) ≠ Int.tdiv (min_array_size 64 624 312) 4 * 4 := by
  refine ⟨by decide, rfl, by decide⟩

/-- C4 amended: for either width, a count below the 32-bit minimum gets the
32-bit minimum rounded toward zero to a multiple of 4 as its buffer size
(rounded down when that minimum is not negative), and this is the size the
resolver returns when it succeeds; at width 32 it is the minimum of the
selected width. -/
theorem raise_to_min32 (count bit m32 m64 : Int) (h : count < m32) :
    buffer_size count m32 = Int.tdiv m32 4 * 4 ∧
    (0 ≤ m32 → buffer_size count m32 = m32 / 4 * 4) ∧
    (∀ bs, resolve count bit m32 m64 = Except.ok bs → bs = Int.tdiv m32 4 * 4) ∧
    (bit = 32 → buffer_size count m32 = Int.tdiv (min_array_size bit m32 m64) 4 * 4) := by
  have hb : buffer_size count m32 = Int.tdiv m32 4 * 4 := by
    unfold buffer_size
    rw [if_pos h]
  refine ⟨hb, ?_, ?_, ?_⟩
  · intro h0
    rw [hb, tdiv4_mul4_of_nonneg h0]
  · intro bs hbs
    rw [resolve_ok_eq hbs, hb]
  · intro h32
    rw [hb, min_array_size, if_pos h32]

theorem raise_to_min32_witness :
    buffer_size 1 624 = Int.tdiv 624 4 * 4 ∧
    (0 ≤ (624 : Int) → buffer_size 1 624 = 624 / 4 * 4) ∧
    (∀ bs, resolve 1 64 624 312 = Except.ok bs → bs = Int.tdiv 624 4 * 4) ∧
    ((64 : Int) = 32 → buffer_size 1 624 = Int.tdiv (min_array_size 64 624 312) 4 * 4) :=
  raise_to_min32 1 64 624 312 (by decide)

/-- C5: whenever neither size check stops the run, the buffer size it goes
on with is at least the minimum of the selected width, for every count
(negative ones included) and every pair of minimums. -/
theorem resolved_size_at_least_min (count bit m32 m64 bs : Int) (hbit : bit = 32 ∨ bit = 64)
    (h : resolve count bit m32 m64 = Except.ok bs) :
    min_array_size bit m32 m64 ≤ bs := by
  have hbs := resolve_ok_eq h
  subst hbs
  by_contra hlt
  rw [resolve_of_lt hbit (by omega)] at h
  cases h

theorem resolved_size_at_least_min_witness :
    min_array_size 64 624 312 ≤ 624 :=
  resolved_size_at_least_min (-5) 64 624 312 624 (Or.inr rfl) (by rfl)

/-- C10: at width 32 or 64 the run stops with the size report exactly when
the buffer size computed by lines 49-54 is below the minimum of the selected
width; the report carries that size and that minimum, and otherwise the
computed size is returned, so no returned size is below the minimum. -/
theorem size_error_iff (count bit m32 m64 : Int) (hbit : bit = 32 ∨ bit = 64) :
    ((∃ report, resolve count bit m32 m64 = Except.error report) ↔
      buffer_size count m32 < min_array_size bit m32 m64) ∧
    (buffer_size count m32 < min_array_size bit m32 m64 →
      resolve count bit m32 m64 = Except.error
        (Event.buffer_too_small (buffer_size count m32) (min_array_size bit m32 m64))) ∧
    (¬ buffer_size count m32 < min_array_size bit m32 m64 →
      resolve count bit m32 m64 = Except.ok (buffer_size count m32)) := by
  refine ⟨⟨?_, ?_⟩, ?_, ?_⟩
  · rintro ⟨report, hr⟩
    by_contra hge
    rw [resolve_of_le hbit (by omega)] at hr
    cases hr
  · intro hlt
    exact ⟨_, resolve_of_lt hbit hlt⟩
  · exact resolve_of_lt hbit
  · intro hge
    exact resolve_of_le hbit (by omega)

theorem size_error_iff_witness :
    resolve 1 32 626 313 = Except.error (Event.buffer_too_small 624 626) ∧
    resolve 1 64 626 313 = Except.ok 624 :=
  ⟨(size_error_iff 1 32 626 313 (Or.inl rfl)).2.1 (by decide),
   (size_error_iff 1 64 626 313 (Or.inr rfl)).2.2 (by decide)⟩

/-! ## Traces of the generation -/

theorem values_append (xs ys : List Event) : values (xs ++ ys) = values xs ++ values ys := by
  induction xs with
  | nil => rfl
  | cons e es ih => cases e <;> simp [values, ih]

theorem values_map_value (xs : List (Option Nat)) :
    values (xs.map Event.value) = xs := by
  induction xs with
  | nil => rfl
  | cons x rest ih => simp [values, ih]

theorem values_each_loop {σ : Type} (draw : σ → Nat × σ) (call : Event)
    (hcall : call.is_call = true) (n : Nat) (s : σ) :
    values (each_loop draw call n s) = (draws draw n s).1.map some := by
  induction n generalizing s with
  | zero => rfl
  | succ k ih =>
    cases call <;> simp [Event.is_call] at hcall <;> simp [each_loop, draws, values, ih]

theorem calls_each_loop {σ : Type} (draw : σ → Nat × σ) (call : Event)
    (hcall : call.is_call = true) (n : Nat) (s : σ) :
    calls (each_loop draw call n s) = List.replicate n call := by
  induction n generalizing s with
  | zero => rfl
  | succ k ih =>
    have ih2 := ih (draw s).2
    unfold calls at ih2 ⊢
    have hv : ∀ x, Event.is_call (Event.value x) = false := fun _ => rfl
    simp only [each_loop, List.filter_cons, hcall, hv, ih2, List.replicate_succ, if_true]
    simp

theorem mem_each_loop {σ : Type} (draw : σ → Nat × σ) (call e : Event) (n : Nat) (s : σ)
    (h : e ∈ each_loop draw call n s) : e = call ∨ ∃ x, e = Event.value x := by
  induction n generalizing s with
  | zero => simp [each_loop] at h
  | succ k ih =>
    simp only [each_loop, List.mem_cons] at h
    rcases h with h | h | h
    · exact Or.inl h
    · exact Or.inr ⟨_, h⟩
    · exact ih _ h

theorem mem_array_loop (array : List Nat) (e : Event) (n i : Nat)
    (h : e ∈ array_loop array i n) : ∃ x, e = Event.value x := by
  induction n generalizing i with
  | zero => simp [array_loop] at h
  | succ k ih =>
    simp only [array_loop, List.mem_cons] at h
    rcases h with h | h
    · exact ⟨_, h⟩
    · exact ih _ h

theorem draws_length {σ : Type} (draw : σ → Nat × σ) (n : Nat) (s : σ) :
    (draws draw n s).1.length = n := by
  induction n generalizing s with
  | zero => rfl
  | succ k ih => simp [draws, ih]

theorem draws_take {σ : Type} (draw : σ → Nat × σ) (n m : Nat) (s : σ) (h : n ≤ m) :
    (draws draw m s).1.take n = (draws draw n s).1 := by
  induction n generalizing m s with
  | zero => simp [draws]
  | succ k ih =>
    cases m with
    | zero => omega
    | succ j => simp [draws, ih j (draw s).2 (by omega)]

theorem resolve_error_eq {count bit m32 m64 : Int} {report : Event}
    (h : resolve count bit m32 m64 = Except.error report) :
    ∃ a b, report = Event.buffer_too_small a b := by
  unfold resolve at h
  split_ifs at h
  · exact ⟨_, _, (Except.error.inj h).symm⟩
  · exact ⟨_, _, (Except.error.inj h).symm⟩

theorem generate_of_ok {σ : Type} (E : Engine σ) (v : Vars) {bs : Int}
    (h : resolve v.count v.bit E.min_array_size32 E.min_array_size64 = Except.ok bs) :
    generate E v =
      { trace := Event.header E.idstring v.bit :: (seeding E v).1 :: emit E v bs (seeding E v).2,
        exit := Exit.success } := by
  simp [generate, h]

theorem generate_of_error {σ : Type} (E : Engine σ) (v : Vars) {report : Event}
    (h : resolve v.count v.bit E.min_array_size32 E.min_array_size64 = Except.error report) :
    generate E v = { trace := [report], exit := Exit.failure } := by
  simp [generate, h]

theorem seeding_is_init {σ : Type} (E : Engine σ) (v : Vars) :
    (∃ seed, (seeding E v).1 = Event.init_gen_rand seed) ∨
    (∃ key len, (seeding E v).1 = Event.init_by_array key len) := by
  unfold seeding
  cases v.seed_array with
  | none => exact Or.inl ⟨_, rfl⟩
  | some key => exact Or.inr ⟨_, _, rfl⟩

theorem values_generate_of_ok {σ : Type} (E : Engine σ) (v : Vars) {bs : Int}
    (h : resolve v.count v.bit E.min_array_size32 E.min_array_size64 = Except.ok bs) :
    values (generate E v).trace = values (emit E v bs (seeding E v).2) := by
  rw [generate_of_ok E v h]
  rcases seeding_is_init E v with ⟨seed, hs⟩ | ⟨key, len, hs⟩ <;> simp [values, hs]

/-! ## Claims on the emission -/

theorem generate_bulk32_trace {σ : Type} (E : Engine σ) (v : Vars) {bs : Int}
    (hres : resolve v.count v.bit E.min_array_size32 E.min_array_size64 = Except.ok bs)
    (heach : v.each = 0) (hbit : v.bit = 32) :
    (generate E v).trace =
      Event.header E.idstring 32 :: (seeding E v).1 :: Event.fill_array32 bs ::
        array_loop (E.fill_array32 (seeding E v).2 bs).1 0 v.count.toNat := by
  rw [generate_of_ok E v hres]
  simp [emit, heach, hbit]

theorem generate_bulk64_trace {σ : Type} (E : Engine σ) (v : Vars) {bs : Int}
    (hres : resolve v.count v.bit E.min_array_size32 E.min_array_size64 = Except.ok bs)
    (heach : v.each = 0) (hbit : v.bit = 64) :
    (generate E v).trace =
      Event.header E.idstring 64 :: (seeding E v).1 :: Event.fill_array64 bs ::
        array_loop (E.fill_array64 (seeding E v).2 bs).1 0 v.count.toNat := by
  rw [generate_of_ok E v hres]
  simp [emit, heach, hbit]

theorem main_of_scan {σ : Type} (E : Engine σ) {argv : List String} {printed : List Event}
    {v : Vars} (h : scan argv = (printed, some v)) :
    main E argv =
      { trace := printed ++ (generate E v).trace, exit := (generate E v).exit } := by
  simp only [main, h]

theorem main_of_scan_exit {σ : Type} (E : Engine σ) {argv : List String} {printed : List Event}
    (h : scan argv = (printed, none)) :
    main E argv = { trace := printed, exit := Exit.failure } := by
  simp only [main, h]

theorem values_generate_bulk32 {σ : Type} (E : Engine σ) (v : Vars) {bs : Int}
    (hres : resolve v.count v.bit E.min_array_size32 E.min_array_size64 = Except.ok bs)
    (heach : v.each = 0) (hbit : v.bit = 32) :
    values (generate E v).trace =
      (List.range' 0 v.count.toNat).map
        (fun j => (E.fill_array32 (seeding E v).2 bs).1[j]?) := by
  rw [values_generate_of_ok E v hres]
  simp only [emit]
  rw [if_neg (by simp [heach]), if_pos hbit]
  simp only [values]
  rw [values_array_loop]

theorem values_generate_bulk64 {σ : Type} (E : Engine σ) (v : Vars) {bs : Int}
    (hres : resolve v.count v.bit E.min_array_size32 E.min_array_size64 = Except.ok bs)
    (heach : v.each = 0) (hbit : v.bit = 64) :
    values (generate E v).trace =
      (List.range' 0 v.count.toNat).map
        (fun j => (E.fill_array64 (seeding E v).2 bs).1[j]?) := by
  rw [values_generate_of_ok E v hres]
  simp only [emit]
  rw [if_neg (by simp [heach]), if_neg (by rw [hbit]; decide), if_pos hbit]
  simp only [values]
  rw [values_array_loop]

theorem main_n625 {σ : Type} (E : Engine σ) (h32 : E.min_array_size32 = 624) :
    (main E ["prog", "-n", "625"]).exit = Exit.success ∧
    (values (main E ["prog", "-n", "625"]).trace).length = 625 ∧
    (values (main E ["prog", "-n", "625"]).trace)[624]? = some none := by
  have hs : scan ["prog", "-n", "625"] =
      ([Event.unknown_option "prog"], some ⟨625, 0, 32, 0, none, 0⟩) := by decide
  obtain ⟨v, hv⟩ : ∃ v : Vars, v = ⟨625, 0, 32, 0, none, 0⟩ := ⟨_, rfl⟩
  rw [← hv] at hs
  have hcount : v.count = 625 := by rw [hv]
  have hbit : v.bit = 32 := by rw [hv]
  have heach : v.each = 0 := by rw [hv]
  have hres : resolve v.count v.bit E.min_array_size32 E.min_array_size64 = Except.ok 624 := by
    rw [h32, hcount, hbit]
    exact @resolve_of_le 625 32 624 E.min_array_size64 (Or.inl rfl)
      (by rw [min_array_size, if_pos rfl]; decide)
  have hlen : (E.fill_array32 (seeding E v).2 624).1.length = 624 :=
    E.fill_array32_length _ _
  have hval : values (main E ["prog", "-n", "625"]).trace =
      (List.range' 0 625).map (fun j => (E.fill_array32 (seeding E v).2 624).1[j]?) := by
    rw [main_of_scan E hs, values_append]
    show [] ++ values (generate E v).trace = _
    rw [List.nil_append, values_generate_bulk32 E v hres heach hbit, hcount]
    rfl
  refine ⟨?_, ?_, ?_⟩
  · rw [main_of_scan E hs, generate_of_ok E v hres]
  · rw [hval]
    simp
  · rw [hval, List.getElem?_map, List.getElem?_range' _ _ (by decide : 624 < 625)]
    simp only [Option.map_some']
    congr 1
    rw [List.getElem?_eq_none_iff]
    omega

/-- C2, where the code departs from the claim: on `prog -n 625` with the
minimums 624 and 312 the run succeeds and prints 625 value lines, but the
bulk path filled a block of 624 words only; the last line printed is the
word read at index 624, outside the block, and is no value of the engine. -/
theorem main_prints_word_outside_buffer :
    (main counter ["prog", "-n", "625"]).exit = Exit.success ∧
    (values (main counter ["prog", "-n", "625"]).trace).length = 625 ∧
    (values (main counter ["prog", "-n", "625"]).trace)[624]? = some none :=
  main_n625 counter rfl

theorem fill_size_of_mem_generate {σ : Type} (E : Engine σ) (v : Vars) (n : Int)
    (h : Event.fill_array32 n ∈ (generate E v).trace ∨
         Event.fill_array64 n ∈ (generate E v).trace) :
    n = buffer_size v.count E.min_array_size32 := by
  cases hres : resolve v.count v.bit E.min_array_size32 E.min_array_size64 with
  | error report =>
    rw [generate_of_error E v hres] at h
    obtain ⟨a, b, hab⟩ := resolve_error_eq hres
    subst hab
    simp at h
  | ok bs =>
    have hbs := resolve_ok_eq hres
    rw [generate_of_ok E v hres] at h
    have hseed32 : Event.fill_array32 n ≠ (seeding E v).1 := by
      rcases seeding_is_init E v with ⟨s, hs⟩ | ⟨k, l, hs⟩ <;> simp [hs]
    have hseed64 : Event.fill_array64 n ≠ (seeding E v).1 := by
      rcases seeding_is_init E v with ⟨s, hs⟩ | ⟨k, l, hs⟩ <;> simp [hs]
    have hmem : Event.fill_array32 n ∈ emit E v bs (seeding E v).2 ∨
        Event.fill_array64 n ∈ emit E v bs (seeding E v).2 := by
      simpa [hseed32, hseed64] using h
    have key : ∀ e : Event, (e = Event.fill_array32 n ∨ e = Event.fill_array64 n) →
        e ∈ emit E v bs (seeding E v).2 → n = bs := by
      intro e he hin
      unfold emit at hin
      split_ifs at hin
      · rcases mem_each_loop _ _ _ _ _ hin with h1 | ⟨x, h1⟩ <;> rcases he with h2 | h2 <;>
          rw [h2] at h1 <;> cases h1
      · rcases mem_each_loop _ _ _ _ _ hin with h1 | ⟨x, h1⟩ <;> rcases he with h2 | h2 <;>
          rw [h2] at h1 <;> cases h1
      · simp at hin
      · rcases List.mem_cons.mp hin with h1 | h1
        · rcases he with h2 | h2 <;> rw [h2] at h1 <;> cases h1
          rfl
        · obtain ⟨x, hx⟩ := mem_array_loop _ _ _ _ h1
          rcases he with h2 | h2 <;> rw [h2] at hx <;> cases hx
      · rcases List.mem_cons.mp hin with h1 | h1
        · rcases he with h2 | h2 <;> rw [h2] at h1 <;> cases h1
          rfl
        · obtain ⟨x, hx⟩ := mem_array_loop _ _ _ _ h1
          rcases he with h2 | h2 <;> rw [h2] at hx <;> cases hx
      · simp at hin
    rw [← hbs]
    rcases hmem with h1 | h1
    · exact key _ (Or.inl rfl) h1
    · exact key _ (Or.inr rfl) h1

/-- C6: for every count, width and minimums the buffer size of lines 49-54 is
a multiple of 4 (remainder 0 both in the C sense and in the floor sense);
every bulk-fill call a run makes gets exactly this value as its size, and a
bulk run that passes the size checks at width 32 or 64 does make that call. -/
theorem buffer_size_multiple_of_four {σ : Type} (E : Engine σ) (v : Vars) :
    buffer_size v.count E.min_array_size32 % 4 = 0 ∧
    Int.tmod (buffer_size v.count E.min_array_size32) 4 = 0 ∧
    (∀ n, (Event.fill_array32 n ∈ (generate E v).trace ∨
           Event.fill_array64 n ∈ (generate E v).trace) →
      n = buffer_size v.count E.min_array_size32 ∧ n % 4 = 0) ∧
    ((generate E v).exit = Exit.success → v.each = 0 →
      (v.bit = 32 →
        Event.fill_array32 (buffer_size v.count E.min_array_size32) ∈ (generate E v).trace) ∧
      (v.bit = 64 →
        Event.fill_array64 (buffer_size v.count E.min_array_size32) ∈ (generate E v).trace)) := by
  refine ⟨buffer_size_emod _ _, buffer_size_tmod _ _, ?_, ?_⟩
  · intro n hn
    have hn2 := fill_size_of_mem_generate E v n hn
    exact ⟨hn2, by rw [hn2]; exact buffer_size_emod _ _⟩
  · intro hexit heach
    cases hres : resolve v.count v.bit E.min_array_size32 E.min_array_size64 with
    | error report =>
      rw [generate_of_error E v hres] at hexit
      cases hexit
    | ok bs =>
      have hbs := resolve_ok_eq hres
      subst hbs
      constructor
      · intro hbit
        rw [generate_bulk32_trace E v hres heach hbit]
        simp
      · intro hbit
        rw [generate_bulk64_trace E v hres heach hbit]
        simp

theorem buffer_size_multiple_of_four_witness :
    Event.fill_array64 (buffer_size (-7) 624) ∈
      (generate counter ⟨-7, 0, 64, 0, none, 0⟩).trace ∧ buffer_size (-7) 624 = 624 :=
  ⟨((buffer_size_multiple_of_four counter ⟨-7, 0, 64, 0, none, 0⟩).2.2.2 (by decide) rfl).2 rfl, by decide⟩

theorem calls_map_value (xs : List Nat) :
    calls (xs.map (fun x => Event.value (some x))) = [] := by
  induction xs with
  | nil => rfl
  | cons x rest ih =>
    unfold calls at ih ⊢
    simp only [List.map_cons, List.filter_cons, Event.is_call]
    simpa using ih

theorem seeding_is_call {σ : Type} (E : Engine σ) (v : Vars) :
    (seeding E v).1.is_call = true := by
  rcases seeding_is_init E v with ⟨s, hs⟩ | ⟨k, l, hs⟩ <;> rw [hs] <;> rfl

theorem values_cons_skip (e : Event) (es : List Event) (h : ∀ x, e ≠ Event.value x) :
    values (e :: es) = values es := by
  cases e <;> first | rfl | exact absurd rfl (h _)

theorem not_value_of_is_call (e : Event) (h : e.is_call = true) (x : Option Nat) :
    e ≠ Event.value x := by
  intro hx
  rw [hx] at h
  cases h

theorem bulk_shape (hd seed fill : Event) (block : List Nat) (n : Nat)
    (hhd : hd.is_call = false) (hseed : seed.is_call = true) (hfill : fill.is_call = true)
    (hv : ∀ x, hd ≠ Event.value x) (hn : n ≤ block.length) :
    hd :: seed :: fill :: array_loop block 0 n =
      hd :: seed :: fill :: (block.take n).map (fun x => Event.value (some x)) ∧
    calls (hd :: seed :: fill :: array_loop block 0 n) = [seed, fill] ∧
    values (hd :: seed :: fill :: array_loop block 0 n) = (block.take n).map some ∧
    (values (hd :: seed :: fill :: array_loop block 0 n)).length = n := by
  have hvals : values (hd :: seed :: fill :: array_loop block 0 n) = (block.take n).map some := by
    have e1 : values (hd :: seed :: fill :: array_loop block 0 n) =
        values (array_loop block 0 n) := by
      rw [values_cons_skip hd _ hv, values_cons_skip seed _ (not_value_of_is_call seed hseed),
        values_cons_skip fill _ (not_value_of_is_call fill hfill)]
    rw [e1, array_loop_in_bounds block n hn]
    have e2 : (block.take n).map (fun x => Event.value (some x)) =
        ((block.take n).map some).map Event.value := by
      rw [List.map_map]
      rfl
    rw [e2, values_map_value]
  refine ⟨by rw [array_loop_in_bounds block n hn], ?_, hvals, ?_⟩
  · rw [array_loop_in_bounds block n hn]
    have hc := calls_map_value (block.take n)
    unfold calls at hc ⊢
    simp only [List.filter_cons, hhd, hseed, hfill, hc]
    simp
  · rw [hvals]
    simp
    exact hn

theorem values_bulk_in_bounds {σ : Type} (E : Engine σ) (v : Vars) (bs : Int)
    (hres : resolve v.count v.bit E.min_array_size32 E.min_array_size64 = Except.ok bs)
    (heach : v.each = 0) (hn : v.count.toNat ≤ bs.toNat) :
    (v.bit = 32 →
      values (generate E v).trace =
        ((E.fill_array32 (seeding E v).2 bs).1.take v.count.toNat).map some ∧
      (values (generate E v).trace).length = v.count.toNat) ∧
    (v.bit = 64 →
      values (generate E v).trace =
        ((E.fill_array64 (seeding E v).2 bs).1.take v.count.toNat).map some ∧
      (values (generate E v).trace).length = v.count.toNat) := by
  constructor
  · intro hbit
    rw [generate_bulk32_trace E v hres heach hbit]
    exact (bulk_shape (Event.header E.idstring 32) (seeding E v).1
      (Event.fill_array32 bs) (E.fill_array32 (seeding E v).2 bs).1 v.count.toNat
      rfl (seeding_is_call E v) rfl (fun x h => by cases h)
      (by rw [E.fill_array32_length]; exact hn)).2.2
  · intro hbit
    rw [generate_bulk64_trace E v hres heach hbit]
    exact (bulk_shape (Event.header E.idstring 64) (seeding E v).1
      (Event.fill_array64 bs) (E.fill_array64 (seeding E v).2 bs).1 v.count.toNat
      rfl (seeding_is_call E v) rfl (fun x h => by cases h)
      (by rw [E.fill_array64_length]; exact hn)).2.2

/-- C8: on a bulk run that passes the size checks with `0 ≤ count ≤ bs`, at
either width, the trace is the header, the one seeding call, one bulk-fill
call of size `bs`, and then the first `count` words of the filled block in
index order, each printed once; the generator calls are the seeding and that
single fill, and nothing beyond the first `count` words is printed. -/
theorem bulk_emits_head_of_block {σ : Type} (E : Engine σ) (v : Vars) (bs : Int)
    (hres : resolve v.count v.bit E.min_array_size32 E.min_array_size64 = Except.ok bs)
    (heach : v.each = 0) (h0 : 0 ≤ v.count) (hle : v.count ≤ bs) :
    (v.bit = 32 →
      (generate E v).trace =
        Event.header E.idstring 32 :: (seeding E v).1 :: Event.fill_array32 bs ::
          ((E.fill_array32 (seeding E v).2 bs).1.take v.count.toNat).map
            (fun x => Event.value (some x)) ∧
      calls (generate E v).trace = [(seeding E v).1, Event.fill_array32 bs] ∧
      values (generate E v).trace =
        ((E.fill_array32 (seeding E v).2 bs).1.take v.count.toNat).map some ∧
      ((values (generate E v).trace).length : Int) = v.count) ∧
    (v.bit = 64 →
      (generate E v).trace =
        Event.header E.idstring 64 :: (seeding E v).1 :: Event.fill_array64 bs ::
          ((E.fill_array64 (seeding E v).2 bs).1.take v.count.toNat).map
            (fun x => Event.value (some x)) ∧
      calls (generate E v).trace = [(seeding E v).1, Event.fill_array64 bs] ∧
      values (generate E v).trace =
        ((E.fill_array64 (seeding E v).2 bs).1.take v.count.toNat).map some ∧
      ((values (generate E v).trace).length : Int) = v.count) := by
  have hn : v.count.toNat ≤ bs.toNat := by omega
  constructor
  · intro hbit
    rw [generate_bulk32_trace E v hres heach hbit]
    obtain ⟨h1, h2, h3, h4⟩ := bulk_shape (Event.header E.idstring 32) (seeding E v).1
      (Event.fill_array32 bs) (E.fill_array32 (seeding E v).2 bs).1 v.count.toNat
      rfl (seeding_is_call E v) rfl (fun x h => by cases h)
      (by rw [E.fill_array32_length]; exact hn)
    exact ⟨h1, h2, h3, by rw [h4]; exact Int.toNat_of_nonneg h0⟩
  · intro hbit
    rw [generate_bulk64_trace E v hres heach hbit]
    obtain ⟨h1, h2, h3, h4⟩ := bulk_shape (Event.header E.idstring 64) (seeding E v).1
      (Event.fill_array64 bs) (E.fill_array64 (seeding E v).2 bs).1 v.count.toNat
      rfl (seeding_is_call E v) rfl (fun x h => by cases h)
      (by rw [E.fill_array64_length]; exact hn)
    exact ⟨h1, h2, h3, by rw [h4]; exact Int.toNat_of_nonneg h0⟩

theorem bulk_emits_head_of_block_witness :
    (generate counter ⟨3, 5, 64, 0, none, 0⟩).trace =
      [Event.header "counter" 64, Event.init_gen_rand 5, Event.fill_array64 624,
       Event.value (some 5), Event.value (some 6), Event.value (some 7)] :=
  ((bulk_emits_head_of_block counter ⟨3, 5, 64, 0, none, 0⟩ 624 (by rfl) rfl
    (by decide) (by decide)).2 rfl).1

theorem seeding_congr {σ : Type} (E : Engine σ) (v w : Vars) (hseed : v.seed = w.seed)
    (harr : v.seed_array = w.seed_array) (hsize : v.seed_array_size = w.seed_array_size) :
    seeding E v = seeding E w := by
  unfold seeding
  rw [hseed, harr, hsize]

theorem values_emit_each {σ : Type} (E : Engine σ) (v : Vars) (bs : Int) (s : σ)
    (heach : v.each ≠ 0) :
    (v.bit = 32 → values (emit E v bs s) = (draws E.genrand_uint32 v.count.toNat s).1.map some) ∧
    (v.bit = 64 → values (emit E v bs s) = (draws E.genrand_uint64 v.count.toNat s).1.map some) := by
  constructor
  · intro hbit
    unfold emit
    rw [if_pos heach, if_pos hbit]
    exact values_each_loop E.genrand_uint32 Event.genrand_uint32 rfl _ _
  · intro hbit
    unfold emit
    rw [if_pos heach, if_neg (by rw [hbit]; decide), if_pos hbit]
    exact values_each_loop E.genrand_uint64 Event.genrand_uint64 rfl _ _

theorem counter_fill (n s : Nat) :
    List.range' s n = (draws (fun t : Nat => (t, t + 1)) n s).1 := by
  induction n generalizing s with
  | zero => rfl
  | succ k ih => simp [draws, List.range'_succ, ih]

/-- C7: take a per-value run and a bulk run with the same seed variables,
width (32 or 64) and count, where `0 ≤ count` and the count does not exceed
the buffer size, and an engine whose bulk fill of `n` words stores the values
of `n` successive single draws of that width from the same state.  Then both
runs print the same values, position by position, and when the size checks
pass these are `count` values. -/
theorem each_equals_bulk {σ : Type} (E : Engine σ) (vp vb : Vars)
    (hp : vp.each ≠ 0) (hb : vb.each = 0)
    (hcount : vp.count = vb.count) (hwidth : vp.bit = vb.bit) (hseed : vp.seed = vb.seed)
    (harr : vp.seed_array = vb.seed_array) (hsize : vp.seed_array_size = vb.seed_array_size)
    (hbit : vb.bit = 32 ∨ vb.bit = 64)
    (h0 : 0 ≤ vb.count) (hle : vb.count ≤ buffer_size vb.count E.min_array_size32)
    (h32 : ∀ s n, (E.fill_array32 s n).1 = (draws E.genrand_uint32 n.toNat s).1)
    (h64 : ∀ s n, (E.fill_array64 s n).1 = (draws E.genrand_uint64 n.toNat s).1) :
    values (generate E vp).trace = values (generate E vb).trace ∧
    ((generate E vb).exit = Exit.success →
      ((values (generate E vb).trace).length : Int) = vb.count) := by
  cases hres : resolve vb.count vb.bit E.min_array_size32 E.min_array_size64 with
  | error report =>
    have hres2 : resolve vp.count vp.bit E.min_array_size32 E.min_array_size64 =
        Except.error report := by rw [hcount, hwidth]; exact hres
    rw [generate_of_error E vb hres, generate_of_error E vp hres2]
    exact ⟨rfl, fun h => by cases h⟩
  | ok bs =>
    have hres2 : resolve vp.count vp.bit E.min_array_size32 E.min_array_size64 =
        Except.ok bs := by rw [hcount, hwidth]; exact hres
    have hbs := resolve_ok_eq hres
    have hn : vb.count.toNat ≤ bs.toNat := by omega
    have hbulk := values_bulk_in_bounds E vb bs hres hb hn
    have heach := values_emit_each E vp bs (seeding E vp).2 hp
    rw [values_generate_of_ok E vp hres2]
    rw [seeding_congr E vp vb hseed harr hsize, hcount, hwidth] at heach
    rw [seeding_congr E vp vb hseed harr hsize]
    rcases hbit with h | h
    · obtain ⟨hv, hl⟩ := hbulk.1 h
      refine ⟨?_, fun _ => by rw [hl]; exact Int.toNat_of_nonneg h0⟩
      rw [heach.1 h, hv, h32, draws_take _ _ _ _ hn]
    · obtain ⟨hv, hl⟩ := hbulk.2 h
      refine ⟨?_, fun _ => by rw [hl]; exact Int.toNat_of_nonneg h0⟩
      rw [heach.2 h, hv, h64, draws_take _ _ _ _ hn]

theorem each_equals_bulk_witness :
    values (generate counter ⟨3, 5, 32, 1, none, 0⟩).trace =
      values (generate counter ⟨3, 5, 32, 0, none, 0⟩).trace ∧
    ((generate counter ⟨3, 5, 32, 0, none, 0⟩).exit = Exit.success →
      ((values (generate counter ⟨3, 5, 32, 0, none, 0⟩).trace).length : Int) = 3) :=
  each_equals_bulk counter ⟨3, 5, 32, 1, none, 0⟩ ⟨3, 5, 32, 0, none, 0⟩
    (by decide) rfl rfl rfl rfl rfl rfl (Or.inl rfl) (by decide) (by decide)
    (fun s n => counter_fill n.toNat s) (fun s n => counter_fill n.toNat s)

/-! ## The option scan -/

theorem scan_from_skip (skip : Bool) (rest : List String) (v : Vars) :
    scan_from skip rest v = scan_from false (bif skip then rest.tail else rest) v := by
  cases skip with
  | false => rfl
  | true =>
    cases rest with
    | nil => rfl
    | cons b t => rfl

theorem scan_from_cons_next {arg : String} {rest : List String} {v v1 : Vars}
    {out : List Event} {skip : Bool}
    (h : scan_body arg rest.head? v = Step.next out v1 skip) :
    scan_from false (arg :: rest) v =
      (out ++ (scan_from false (bif skip then rest.tail else rest) v1).1,
       (scan_from false (bif skip then rest.tail else rest) v1).2) := by
  rw [← scan_from_skip]
  simp only [scan_from, h]

theorem scan_from_cons_exit {arg : String} {rest : List String} {v : Vars}
    {out : List Event} (h : scan_body arg rest.head? v = Step.exit out) :
    scan_from false (arg :: rest) v = (out, none) := by
  simp only [scan_from, h]

theorem scan_of_reaches {argv rest : List String} {v : Vars} {printed : List Event}
    (h : Reaches argv rest v printed) :
    scan argv = (printed ++ (scan_from false rest v).1, (scan_from false rest v).2) := by
  induction h with
  | start => simp [scan]
  | pass hr hstep ih =>
    rw [ih, scan_from_cons_next hstep]
    simp

theorem scan_body_exit {arg : String} {nxt : Option String} {v : Vars} {out : List Event}
    (h : scan_body arg nxt v = Step.exit out) :
    out = [Event.bit_error] ∧ ∃ val, nxt = some val ∧ (arg = "-b" ∨ arg = "--bit") ∧
      atoi val ≠ 32 ∧ atoi val ≠ 64 := by
  unfold scan_body at h
  cases nxt with
  | none =>
    simp only at h
    split_ifs at h
  | some val =>
    simp only at h
    split_ifs at h with h1 h2 h3 h4 h5
    exact ⟨(Step.exit.inj h).symm, val, rfl, h4, h5.1, h5.2⟩

theorem scan_body_next_printed {arg : String} {nxt : Option String} {v v1 : Vars}
    {out : List Event} {skip : Bool} (h : scan_body arg nxt v = Step.next out v1 skip) :
    out = [] ∨ out = [Event.unknown_option arg] := by
  unfold scan_body at h
  cases nxt with
  | none =>
    simp only at h
    split_ifs at h <;> simp only [Step.next.injEq] at h <;> simp [← h.1]
  | some val =>
    simp only at h
    split_ifs at h <;> simp only [Step.next.injEq] at h <;> simp [← h.1]

theorem reaches_printed {argv rest : List String} {v : Vars} {printed : List Event}
    (h : Reaches argv rest v printed) :
    ∀ e ∈ printed, ∃ arg, e = Event.unknown_option arg := by
  induction h with
  | start => simp
  | pass hr hstep ih =>
    intro e he
    rcases List.mem_append.mp he with h1 | h1
    · exact ih e h1
    · rcases scan_body_next_printed hstep with h2 | h2
      · rw [h2] at h1
        cases h1
      · rw [h2] at h1
        exact ⟨_, List.mem_singleton.mp h1⟩

theorem calls_of_printed (printed : List Event)
    (h : ∀ e ∈ printed, ∃ arg, e = Event.unknown_option arg) :
    calls printed = [] ∧ values printed = [] := by
  induction printed with
  | nil => exact ⟨rfl, rfl⟩
  | cons e es ih =>
    obtain ⟨arg, he⟩ := h e (List.mem_cons_self _ _)
    have ih2 := ih (fun x hx => h x (List.mem_cons_of_mem _ hx))
    subst he
    exact ⟨by simpa [calls, Event.is_call] using ih2.1, by simpa [values] using ih2.2⟩

theorem scan_from_reaches (argv : List String) (n : Nat) :
    ∀ (l : List String) (v : Vars) (printed : List Event), l.length ≤ n →
      Reaches argv l v printed →
      (∀ w, (scan_from false l v).2 = some w →
        Reaches argv [] w (printed ++ (scan_from false l v).1)) ∧
      ((scan_from false l v).2 = none →
        ∃ arg val rest v1 printed1, Reaches argv (arg :: val :: rest) v1 printed1 ∧
          (arg = "-b" ∨ arg = "--bit") ∧ atoi val ≠ 32 ∧ atoi val ≠ 64) := by
  induction n with
  | zero =>
    intro l v printed hl hr
    have hnil : l = [] := List.length_eq_zero.mp (by omega)
    subst hnil
    constructor
    · intro w hw
      have hvw : v = w := by simpa [scan_from] using hw
      subst hvw
      simpa [scan_from] using hr
    · intro hnone
      simp [scan_from] at hnone
  | succ k ih =>
    intro l v printed hl hr
    cases l with
    | nil =>
      constructor
      · intro w hw
        have hvw : v = w := by simpa [scan_from] using hw
        subst hvw
        simpa [scan_from] using hr
      · intro hnone
        simp [scan_from] at hnone
    | cons arg rest =>
      cases hstep : scan_body arg rest.head? v with
      | exit out =>
        rw [scan_from_cons_exit hstep]
        obtain ⟨_, val, hval, harg, h32, h64⟩ := scan_body_exit hstep
        constructor
        · intro w hw
          cases hw
        · intro _
          cases rest with
          | nil => cases hval
          | cons b t =>
            have hb : b = val := by simpa using hval
            subst hb
            exact ⟨arg, b, t, v, printed, hr, harg, h32, h64⟩
      | next out v1 skip =>
        rw [scan_from_cons_next hstep]
        have hr2 := Reaches.pass hr hstep
        have hlen : (bif skip then rest.tail else rest).length ≤ k := by
          have h1 : rest.length ≤ k := by simpa using hl
          cases skip with
          | false => exact h1
          | true =>
            simp only [cond_true, List.length_tail]
            omega
        obtain ⟨ih1, ih2⟩ := ih _ v1 (printed ++ out) hlen hr2
        constructor
        · intro w hw
          have := ih1 w hw
          simpa [List.append_assoc] using this
        · intro hnone
          exact ih2 hnone

theorem scan_ok_reaches {argv : List String} {printed : List Event} {w : Vars}
    (h : scan argv = (printed, some w)) : Reaches argv [] w printed := by
  have h1 := (scan_from_reaches argv argv.length argv Vars.init [] (le_refl _) Reaches.start).1 w
    (by unfold scan at h; rw [h])
  unfold scan at h
  rw [h] at h1
  simpa using h1

theorem scan_exit_reaches {argv : List String} {printed : List Event}
    (h : scan argv = (printed, none)) :
    ∃ arg val rest v1 printed1, Reaches argv (arg :: val :: rest) v1 printed1 ∧
      (arg = "-b" ∨ arg = "--bit") ∧ atoi val ≠ 32 ∧ atoi val ≠ 64 := by
  apply (scan_from_reaches argv argv.length argv Vars.init [] (le_refl _) Reaches.start).2
  unfold scan at h
  rw [h]

theorem scan_body_bit_invalid {arg val : String} (v : Vars) (harg : arg = "-b" ∨ arg = "--bit")
    (h32 : atoi val ≠ 32) (h64 : atoi val ≠ 64) :
    scan_body arg (some val) v = Step.exit [Event.bit_error] := by
  rcases harg with rfl | rfl <;> simp [scan_body, h32, h64]

/-- C16: when the 32-bit minimum is a positive multiple of 4 and the 64-bit
minimum does not exceed it, neither size check fires, for every count and
for width 32 and 64: the resolver returns `4 * (max count m32 / 4)`. -/
theorem resolve_total_of_wellformed (count bit m32 m64 : Int) (hbit : bit = 32 ∨ bit = 64)
    (hpos : 0 < m32) (h4 : m32 % 4 = 0) (h64 : m64 ≤ m32) :
    resolve count bit m32 m64 = Except.ok (4 * (max count m32 / 4)) ∧
    buffer_size count m32 = 4 * (max count m32 / 4) ∧
    m32 ≤ buffer_size count m32 := by
  have hmax : (if count < m32 then m32 else count) = max count m32 := by
    split_ifs with h
    · exact (max_eq_right (le_of_lt h)).symm
    · exact (max_eq_left (not_lt.mp h)).symm
  have hb : buffer_size count m32 = 4 * (max count m32 / 4) := by
    unfold buffer_size
    rw [hmax, tdiv4_mul4_of_nonneg (by omega)]
    omega
  have hge : m32 ≤ buffer_size count m32 := by
    rw [hb]
    omega
  refine ⟨?_, hb, hge⟩
  rw [← hb]
  apply resolve_of_le hbit
  unfold min_array_size
  split_ifs <;> omega

theorem resolve_total_of_wellformed_witness :
    resolve (-3) 64 624 312 = Except.ok (4 * (max (-3) 624 / 4)) ∧
    buffer_size (-3) 624 = 4 * (max (-3) 624 / 4) ∧
    (624 : Int) ≤ buffer_size (-3) 624 :=
  resolve_total_of_wellformed (-3) 64 624 312 (Or.inr rfl) (by decide) (by decide) (by decide)

theorem each_loop_eq {σ : Type} (draw : σ → Nat × σ) (call : Event) (n : Nat) (s : σ) :
    each_loop draw call n s =
      (draws draw n s).1.flatMap (fun x => [call, Event.value (some x)]) := by
  induction n generalizing s with
  | zero => rfl
  | succ k ih => simp [each_loop, draws, ih]

theorem draws_state_succ {σ : Type} (draw : σ → Nat × σ) (n : Nat) (s : σ) :
    (draws draw (n + 1) s).2 = (draw (draws draw n s).2).2 := by
  induction n generalizing s with
  | zero => rfl
  | succ k ih =>
    have := ih (draw s).2
    simpa [draws] using this

theorem draws_getElem? {σ : Type} (draw : σ → Nat × σ) (n i : Nat) (s : σ) (hi : i < n) :
    (draws draw n s).1[i]? = some (draw (draws draw i s).2).1 := by
  induction n generalizing s i with
  | zero => omega
  | succ k ih =>
    cases i with
    | zero => simp [draws]
    | succ j =>
      have := ih j (draw s).2 (by omega)
      simpa [draws] using this

theorem each_shape {σ : Type} (draw : σ → Nat × σ) (hd seed call : Event) (n : Nat) (s : σ)
    (hhd : hd.is_call = false) (hseed : seed.is_call = true) (hcall : call.is_call = true)
    (hv : ∀ x, hd ≠ Event.value x) :
    calls (hd :: seed :: each_loop draw call n s) = seed :: List.replicate n call ∧
    values (hd :: seed :: each_loop draw call n s) = (draws draw n s).1.map some := by
  constructor
  · have hc := calls_each_loop draw call hcall n s
    unfold calls at hc ⊢
    simp only [List.filter_cons, hhd, hseed, hc]
    simp
  · rw [values_cons_skip hd _ hv, values_cons_skip seed _ (not_value_of_is_call seed hseed),
      values_each_loop draw call hcall]

theorem generate_each32_trace {σ : Type} (E : Engine σ) (v : Vars) {bs : Int}
    (hres : resolve v.count v.bit E.min_array_size32 E.min_array_size64 = Except.ok bs)
    (heach : v.each ≠ 0) (hbit : v.bit = 32) :
    (generate E v).trace =
      Event.header E.idstring 32 :: (seeding E v).1 ::
        each_loop E.genrand_uint32 Event.genrand_uint32 v.count.toNat (seeding E v).2 := by
  rw [generate_of_ok E v hres]
  simp [emit, heach, hbit]

theorem generate_each64_trace {σ : Type} (E : Engine σ) (v : Vars) {bs : Int}
    (hres : resolve v.count v.bit E.min_array_size32 E.min_array_size64 = Except.ok bs)
    (heach : v.each ≠ 0) (hbit : v.bit = 64) :
    (generate E v).trace =
      Event.header E.idstring 64 :: (seeding E v).1 ::
        each_loop E.genrand_uint64 Event.genrand_uint64 v.count.toNat (seeding E v).2 := by
  rw [generate_of_ok E v hres]
  simp [emit, heach, hbit]

/-- C15: on a per-value run that passes the size checks with `0 ≤ count`,
at width 32 (and likewise 64) the trace is the header, the seeding call and
then, `count` times, one single draw of that width followed by the line of
the value it returned; there is no bulk fill.  The draws start from the
seeded state and each goes on from the state the one before left: the value
printed at position `i` is what the draw returns on the state after `i`
draws. -/
theorem each_emits_draw_sequence {σ : Type} (E : Engine σ) (v : Vars) (bs : Int)
    (hres : resolve v.count v.bit E.min_array_size32 E.min_array_size64 = Except.ok bs)
    (heach : v.each ≠ 0) (h0 : 0 ≤ v.count) :
    (v.bit = 32 →
      (generate E v).trace =
        Event.header E.idstring 32 :: (seeding E v).1 ::
          (draws E.genrand_uint32 v.count.toNat (seeding E v).2).1.flatMap
            (fun x => [Event.genrand_uint32, Event.value (some x)]) ∧
      calls (generate E v).trace =
        (seeding E v).1 :: List.replicate v.count.toNat Event.genrand_uint32 ∧
      ((values (generate E v).trace).length : Int) = v.count ∧
      ∀ i, i < v.count.toNat → (values (generate E v).trace)[i]? =
        some (some (E.genrand_uint32 (draws E.genrand_uint32 i (seeding E v).2).2).1)) ∧
    (v.bit = 64 →
      (generate E v).trace =
        Event.header E.idstring 64 :: (seeding E v).1 ::
          (draws E.genrand_uint64 v.count.toNat (seeding E v).2).1.flatMap
            (fun x => [Event.genrand_uint64, Event.value (some x)]) ∧
      calls (generate E v).trace =
        (seeding E v).1 :: List.replicate v.count.toNat Event.genrand_uint64 ∧
      ((values (generate E v).trace).length : Int) = v.count ∧
      ∀ i, i < v.count.toNat → (values (generate E v).trace)[i]? =
        some (some (E.genrand_uint64 (draws E.genrand_uint64 i (seeding E v).2).2).1)) := by
  constructor
  · intro hbit
    have htr := generate_each32_trace E v hres heach hbit
    obtain ⟨hc, hv⟩ := each_shape E.genrand_uint32 (Event.header E.idstring 32) (seeding E v).1
      Event.genrand_uint32 v.count.toNat (seeding E v).2 rfl (seeding_is_call E v) rfl
      (fun x h => by cases h)
    rw [htr]
    refine ⟨by rw [each_loop_eq], hc, ?_, ?_⟩
    · rw [hv, List.length_map, draws_length]
      exact Int.toNat_of_nonneg h0
    · intro i hi
      rw [hv, List.getElem?_map, draws_getElem? _ _ _ _ hi]
      rfl
  · intro hbit
    have htr := generate_each64_trace E v hres heach hbit
    obtain ⟨hc, hv⟩ := each_shape E.genrand_uint64 (Event.header E.idstring 64) (seeding E v).1
      Event.genrand_uint64 v.count.toNat (seeding E v).2 rfl (seeding_is_call E v) rfl
      (fun x h => by cases h)
    rw [htr]
    refine ⟨by rw [each_loop_eq], hc, ?_, ?_⟩
    · rw [hv, List.length_map, draws_length]
      exact Int.toNat_of_nonneg h0
    · intro i hi
      rw [hv, List.getElem?_map, draws_getElem? _ _ _ _ hi]
      rfl

theorem each_emits_draw_sequence_witness :
    calls (generate counter ⟨10, 0, 64, 1, none, 0⟩).trace =
      Event.init_gen_rand 0 :: List.replicate 10 Event.genrand_uint64 ∧
    ((values (generate counter ⟨10, 0, 64, 1, none, 0⟩).trace).length : Int) = 10 :=
  ⟨((each_emits_draw_sequence counter ⟨10, 0, 64, 1, none, 0⟩ 624 (by rfl) (by decide)
      (by decide)).2 rfl).2.1,
   ((each_emits_draw_sequence counter ⟨10, 0, 64, 1, none, 0⟩ 624 (by rfl) (by decide)
      (by decide)).2 rfl).2.2.1⟩

/-! ## Claims on whole runs -/

theorem scan_exit_shape {argv : List String} {printed : List Event}
    (h : scan argv = (printed, none)) :
    ∃ p, printed = p ++ [Event.bit_error] ∧ ∀ e ∈ p, ∃ arg, e = Event.unknown_option arg := by
  obtain ⟨arg, val, rest, v1, p1, hr, harg, h32, h64⟩ := scan_exit_reaches h
  have hstep : scan_body arg (val :: rest).head? v1 = Step.exit [Event.bit_error] :=
    scan_body_bit_invalid v1 harg h32 h64
  have hscan : scan argv = (p1 ++ [Event.bit_error], none) := by
    rw [scan_of_reaches hr, scan_from_cons_exit hstep]
  rw [h] at hscan
  exact ⟨p1, (Prod.mk.inj hscan).1, reaches_printed hr⟩

theorem failure_shape {σ : Type} (E : Engine σ) (argv : List String)
    (hexit : (main E argv).exit = Exit.failure) :
    ∃ printed report, (main E argv).trace = printed ++ [report] ∧
      (∀ e ∈ printed, ∃ arg, e = Event.unknown_option arg) ∧
      (report = Event.bit_error ∨ ∃ a b, report = Event.buffer_too_small a b) := by
  cases hscan : scan argv with
  | mk printed res =>
    cases res with
    | none =>
      obtain ⟨p, hp, hall⟩ := scan_exit_shape hscan
      rw [main_of_scan_exit E hscan]
      exact ⟨p, Event.bit_error, hp, hall, Or.inl rfl⟩
    | some w =>
      rw [main_of_scan E hscan] at hexit ⊢
      cases hres : resolve w.count w.bit E.min_array_size32 E.min_array_size64 with
      | error report =>
        rw [generate_of_error E w hres]
        exact ⟨printed, report, rfl, reaches_printed (scan_ok_reaches hscan),
          Or.inr (resolve_error_eq hres)⟩
      | ok bs =>
        rw [generate_of_ok E w hres] at hexit
        cases hexit

/-- C11: a run that ends with failure has printed nothing but unknown-option
lines and then the one error line, which is the width error or the size
report; it made no call to the generator (no seeding, no draw, no fill),
printed no value, and printed no header (identification and mode lines). -/
theorem fatal_run_emits_nothing {σ : Type} (E : Engine σ) (argv : List String)
    (hexit : (main E argv).exit = Exit.failure) :
    (∃ printed report, (main E argv).trace = printed ++ [report] ∧
      (∀ e ∈ printed, ∃ arg, e = Event.unknown_option arg) ∧
      (report = Event.bit_error ∨ ∃ a b, report = Event.buffer_too_small a b)) ∧
    calls (main E argv).trace = [] ∧
    values (main E argv).trace = [] ∧
    ∀ id bit, Event.header id bit ∉ (main E argv).trace := by
  obtain ⟨printed, report, htr, hall, hrep⟩ := failure_shape E argv hexit
  have hp := calls_of_printed printed hall
  refine ⟨⟨printed, report, htr, hall, hrep⟩, ?_, ?_, ?_⟩
  · rw [htr]
    unfold calls at hp ⊢
    rw [List.filter_append, hp.1]
    rcases hrep with h | ⟨a, b, h⟩ <;> rw [h] <;> rfl
  · rw [htr, values_append, hp.2]
    rcases hrep with h | ⟨a, b, h⟩ <;> rw [h] <;> rfl
  · intro id bit hmem
    rw [htr] at hmem
    rcases List.mem_append.mp hmem with h1 | h1
    · obtain ⟨arg, ha⟩ := hall _ h1
      cases ha
    · have h2 := List.mem_singleton.mp h1
      rcases hrep with h | ⟨a, b, h⟩ <;> rw [h] at h2 <;> cases h2

theorem fatal_run_emits_nothing_witness :
    (calls (main counter ["prog", "-e", "-b", "17", "-n", "3"]).trace = [] ∧
      values (main counter ["prog", "-e", "-b", "17", "-n", "3"]).trace = []) ∧
    (calls (main skewed ["prog", "-n", "3"]).trace = [] ∧
      values (main skewed ["prog", "-n", "3"]).trace = []) :=
  ⟨⟨(fatal_run_emits_nothing counter ["prog", "-e", "-b", "17", "-n", "3"] (by decide)).2.1,
    (fatal_run_emits_nothing counter ["prog", "-e", "-b", "17", "-n", "3"] (by decide)).2.2.1⟩,
   ⟨(fatal_run_emits_nothing skewed ["prog", "-n", "3"] (by decide)).2.1,
    (fatal_run_emits_nothing skewed ["prog", "-n", "3"] (by decide)).2.2.1⟩⟩

theorem scan_body_unknown {arg : String} (nxt : Option String) (v : Vars)
    (h : arg ∉ option_spellings) :
    scan_body arg nxt v = Step.next [Event.unknown_option arg] v false := by
  simp only [option_spellings, List.mem_cons, List.mem_singleton, List.not_mem_nil,
    or_false, not_or] at h
  obtain ⟨h1, h2, h3, h4, h5, h6, h7, h8⟩ := h
  cases nxt <;> simp [scan_body, h1, h2, h3, h4, h5, h6, h7, h8]

theorem scan_from_unknown (l : List String) (v : Vars) (h : ∀ a ∈ l, a ∉ option_spellings) :
    scan_from false l v = (l.map Event.unknown_option, some v) := by
  induction l with
  | nil => rfl
  | cons a rest ih =>
    have ha := scan_body_unknown rest.head? v (h a (List.mem_cons_self _ _))
    have hrest := ih (fun x hx => h x (List.mem_cons_of_mem _ hx))
    have := scan_from_cons_next ha
    simp only [cond_false] at this
    rw [this, hrest]
    rfl

/-- C14: take an argument list none of whose elements is one of the eight
option spellings (the program name at index 0 is scanned too), and an engine
whose 32-bit minimum is a positive multiple of 4, as SFMT has it.  Then every
element is reported as an unknown option, in order, and the variables keep
their initial values: count 1, width 32, scalar seed 0, bulk strategy.  The
run succeeds; after the reports it prints the header, seeds with
`sfmt_init_gen_rand(0)`, fills one block of the minimum size and prints
exactly one value, the first word of the block. -/
theorem unrecognized_arguments_give_defaults {σ : Type} (E : Engine σ) (argv : List String)
    (hun : ∀ a ∈ argv, a ∉ option_spellings)
    (hpos : 0 < E.min_array_size32) (h4 : E.min_array_size32 % 4 = 0) :
    scan argv = (argv.map Event.unknown_option, some Vars.init) ∧
    (Vars.init.count = 1 ∧ Vars.init.bit = 32 ∧ Vars.init.each = 0 ∧
      seed_mode Vars.init = SeedMode.scalar 0) ∧
    (main E argv).exit = Exit.success ∧
    (∃ x, (E.fill_array32 (E.init_gen_rand 0) E.min_array_size32).1[0]? = some x ∧
      (main E argv).trace = argv.map Event.unknown_option ++
        [Event.header E.idstring 32, Event.init_gen_rand 0,
          Event.fill_array32 E.min_array_size32, Event.value (some x)] ∧
      values (main E argv).trace = [some x]) := by
  have hscan : scan argv = (argv.map Event.unknown_option, some Vars.init) :=
    scan_from_unknown argv Vars.init hun
  have hbs : buffer_size 1 E.min_array_size32 = E.min_array_size32 := by
    unfold buffer_size
    rw [if_pos (by omega)]
    exact tdiv4_mul4_of_dvd h4
  have hres : resolve Vars.init.count Vars.init.bit E.min_array_size32 E.min_array_size64 =
      Except.ok E.min_array_size32 := by
    have := @resolve_of_le 1 32 E.min_array_size32 E.min_array_size64 (Or.inl rfl)
      (by rw [hbs, min_array_size, if_pos rfl])
    rw [hbs] at this
    exact this
  have hlen := E.fill_array32_length (E.init_gen_rand 0) E.min_array_size32
  have hlt : 0 < (E.fill_array32 (E.init_gen_rand 0) E.min_array_size32).1.length := by
    rw [hlen]
    omega
  have htr := generate_bulk32_trace E Vars.init hres rfl rfl
  have hx : (E.fill_array32 (E.init_gen_rand 0) E.min_array_size32).1[0]? =
      some ((E.fill_array32 (E.init_gen_rand 0) E.min_array_size32).1[0]) :=
    List.getElem?_eq_getElem hlt
  have htr2 : (generate E Vars.init).trace =
      [Event.header E.idstring 32, Event.init_gen_rand 0,
        Event.fill_array32 E.min_array_size32,
        Event.value (some ((E.fill_array32 (E.init_gen_rand 0) E.min_array_size32).1[0]))] := by
    rw [htr]
    show _ :: _ :: _ :: [Event.value
      (E.fill_array32 (E.init_gen_rand 0) E.min_array_size32).1[0]?] = _
    rw [hx]
    rfl
  refine ⟨hscan, ⟨rfl, rfl, rfl, rfl⟩, ?_, _, hx, ?_, ?_⟩
  · rw [main_of_scan E hscan, generate_of_ok E _ hres]
  · rw [main_of_scan E hscan, htr2]
  · rw [main_of_scan E hscan, htr2, values_append]
    have hp : values (argv.map Event.unknown_option) = [] :=
      (calls_of_printed _ (by
        intro e he
        obtain ⟨a, _, ha⟩ := List.mem_map.mp he
        exact ⟨a, ha.symm⟩)).2
    rw [hp]
    rfl

theorem unrecognized_arguments_give_defaults_witness :
    (main counter ["prog", "n", "--count", "12"]).exit = Exit.success ∧
    ∃ x, (counter.fill_array32 (counter.init_gen_rand 0) counter.min_array_size32).1[0]? =
        some x ∧
      (main counter ["prog", "n", "--count", "12"]).trace =
        ["prog", "n", "--count", "12"].map Event.unknown_option ++
          [Event.header counter.idstring 32, Event.init_gen_rand 0,
            Event.fill_array32 counter.min_array_size32, Event.value (some x)] ∧
      values (main counter ["prog", "n", "--count", "12"]).trace = [some x] :=
  (unrecognized_arguments_give_defaults counter ["prog", "n", "--count", "12"]
    (by decide) (by decide) (by decide)).2.2

/-! ## What the scan does to the seed variables -/

theorem scan_body_next_seed {arg : String} {nxt : Option String} {v v1 : Vars}
    {out : List Event} {skip : Bool} (h : scan_body arg nxt v = Step.next out v1 skip) :
    (v1.seed = v.seed ∨
      ∃ val, nxt = some val ∧ (arg = "-s" ∨ arg = "--seed") ∧ v1.seed = atoi val ∧
        skip = true) ∧
    ((v1.seed_array = v.seed_array ∧ v1.seed_array_size = v.seed_array_size) ∨
      ∃ b, nxt = some b ∧ arg = "--seed-array" ∧ v1.seed_array = some fixed_seed_array ∧
        v1.seed_array_size = 4 ∧ skip = false) := by
  unfold scan_body at h
  cases nxt with
  | none =>
    simp only at h
    split_ifs at h <;> simp only [Step.next.injEq] at h <;> obtain ⟨_, hv, _⟩ := h <;>
      subst hv <;> exact ⟨Or.inl rfl, Or.inl ⟨rfl, rfl⟩⟩
  | some a1 =>
    simp only at h
    split_ifs at h with h1 h2 h3 h4 h5 h6
    · simp only [Step.next.injEq] at h
      obtain ⟨_, hv, _⟩ := h
      subst hv
      exact ⟨Or.inl rfl, Or.inl ⟨rfl, rfl⟩⟩
    · simp only [Step.next.injEq] at h
      obtain ⟨_, hv, hs⟩ := h
      subst hv
      exact ⟨Or.inr ⟨a1, rfl, h2, rfl, hs.symm⟩, Or.inl ⟨rfl, rfl⟩⟩
    · simp only [Step.next.injEq] at h
      obtain ⟨_, hv, hs⟩ := h
      subst hv
      exact ⟨Or.inl rfl, Or.inr ⟨a1, rfl, h3, rfl, rfl, hs.symm⟩⟩
    · simp only [Step.next.injEq] at h
      obtain ⟨_, hv, _⟩ := h
      subst hv
      exact ⟨Or.inl rfl, Or.inl ⟨rfl, rfl⟩⟩
    · simp only [Step.next.injEq] at h
      obtain ⟨_, hv, _⟩ := h
      subst hv
      exact ⟨Or.inl rfl, Or.inl ⟨rfl, rfl⟩⟩
    · simp only [Step.next.injEq] at h
      obtain ⟨_, hv, _⟩ := h
      subst hv
      exact ⟨Or.inl rfl, Or.inl ⟨rfl, rfl⟩⟩

theorem scan_from_keeps_array (l : List String) :
    ∀ (skip : Bool) (v w : Vars), (scan_from skip l v).2 = some w →
      v.seed_array = some fixed_seed_array → v.seed_array_size = 4 →
      w.seed_array = some fixed_seed_array ∧ w.seed_array_size = 4 := by
  induction l with
  | nil =>
    intro skip v w hw ha hs
    have hvw : v = w := by simpa [scan_from] using hw
    subst hvw
    exact ⟨ha, hs⟩
  | cons arg rest ih =>
    intro skip v w hw ha hs
    cases skip with
    | true => exact ih false v w (by simpa [scan_from] using hw) ha hs
    | false =>
      cases hstep : scan_body arg rest.head? v with
      | exit out =>
        rw [scan_from_cons_exit hstep] at hw
        cases hw
      | next out v1 skip1 =>
        have hw2 : (scan_from skip1 rest v1).2 = some w := by
          simpa [scan_from, hstep] using hw
        rcases (scan_body_next_seed hstep).2 with ⟨h1, h2⟩ | ⟨b, _, _, h1, h2, _⟩
        · exact ih skip1 v1 w hw2 (by rw [h1]; exact ha) (by rw [h2]; exact hs)
        · exact ih skip1 v1 w hw2 h1 h2

theorem scan_from_origin (argv : List String) (n : Nat) :
    ∀ (l : List String) (v : Vars) (printed : List Event) (w : Vars), l.length ≤ n →
      Reaches argv l v printed → (scan_from false l v).2 = some w →
      (w.seed = v.seed ∨
        ∃ a val t v2 p2, Reaches argv (a :: val :: t) v2 p2 ∧ (a = "-s" ∨ a = "--seed") ∧
          (a :: val :: t).length ≤ l.length) ∧
      ((w.seed_array = v.seed_array ∧ w.seed_array_size = v.seed_array_size) ∨
        ∃ b t v2 p2, Reaches argv ("--seed-array" :: b :: t) v2 p2) := by
  induction n with
  | zero =>
    intro l v printed w hl hr hw
    have hnil : l = [] := List.length_eq_zero.mp (by omega)
    subst hnil
    have hvw : v = w := by simpa [scan_from] using hw
    subst hvw
    exact ⟨Or.inl rfl, Or.inl ⟨rfl, rfl⟩⟩
  | succ k ih =>
    intro l v printed w hl hr hw
    cases l with
    | nil =>
      have hvw : v = w := by simpa [scan_from] using hw
      subst hvw
      exact ⟨Or.inl rfl, Or.inl ⟨rfl, rfl⟩⟩
    | cons arg rest =>
      cases hstep : scan_body arg rest.head? v with
      | exit out =>
        rw [scan_from_cons_exit hstep] at hw
        cases hw
      | next out v1 skip =>
        rw [scan_from_cons_next hstep] at hw
        have hr2 := Reaches.pass hr hstep
        have hlen0 : (bif skip then rest.tail else rest).length ≤ rest.length := by
          cases skip with
          | false => exact le_refl _
          | true =>
            simp only [cond_true, List.length_tail]
            omega
        have hlen : (bif skip then rest.tail else rest).length ≤ k := by
          have h1 : rest.length ≤ k := by simpa using hl
          omega
        obtain ⟨ih1, ih2⟩ := ih _ v1 (printed ++ out) w hlen hr2 hw
        obtain ⟨s1, s2⟩ := scan_body_next_seed hstep
        constructor
        · rcases ih1 with h | ⟨a, val, t, v2, p2, hr3, ha, hl3⟩
          · rcases s1 with h1 | ⟨val, hval, harg, _, _⟩
            · exact Or.inl (by rw [h, h1])
            · right
              cases rest with
              | nil => cases hval
              | cons b t =>
                have hb : b = val := by simpa using hval
                subst hb
                exact ⟨arg, b, t, v, printed, hr, harg, le_refl _⟩
          · right
            refine ⟨a, val, t, v2, p2, hr3, ha, ?_⟩
            simp only [List.length_cons] at hl3 ⊢
            omega
        · rcases ih2 with ⟨h, h'⟩ | hex
          · rcases s2 with ⟨h1, h2⟩ | ⟨b, hb, harg, _, _, _⟩
            · exact Or.inl ⟨by rw [h, h1], by rw [h', h2]⟩
            · right
              cases rest with
              | nil => cases hb
              | cons c t =>
                have hc : c = b := by simpa using hb
                subst hc
                subst harg
                exact ⟨c, t, v, printed, hr⟩
          · exact Or.inr hex

theorem scan_result_of_reaches {argv l : List String} {v w : Vars} {p printed : List Event}
    (hr : Reaches argv l v p) (hscan : scan argv = (printed, some w)) :
    (scan_from false l v).2 = some w := by
  have h := scan_of_reaches hr
  rw [hscan] at h
  exact (Prod.mk.inj h).2.symm

theorem scan_array_of_reaches {argv : List String} {b : String} {t : List String}
    {v1 w : Vars} {p1 printed : List Event}
    (hr : Reaches argv ("--seed-array" :: b :: t) v1 p1)
    (hscan : scan argv = (printed, some w)) :
    w.seed_array = some fixed_seed_array ∧ w.seed_array_size = 4 := by
  have hstep : scan_body "--seed-array" (b :: t).head? v1 =
      Step.next [] { v1 with seed_array := some fixed_seed_array, seed_array_size := 4 }
        false := by
    simp [scan_body, fixed_seed_array]
  have h := scan_result_of_reaches hr hscan
  rw [scan_from_cons_next hstep] at h
  exact scan_from_keeps_array _ _ _ _ h rfl rfl

theorem seed_values_are_int :
    calls (main counter ["prog", "-s", "7", "--seed", "9", "-e"]).trace =
      [Event.init_gen_rand 9, Event.genrand_uint32] ∧
    calls (main counter ["prog", "-s", "4294967296", "-e"]).trace =
      [Event.init_gen_rand 0, Event.genrand_uint32] := by
  refine ⟨by decide, by decide⟩

/-! ## The values of a run depend on the plan only -/

theorem values_main_of_scan {σ : Type} (E : Engine σ) {argv : List String} :
    (∀ w, (scan argv).2 = some w →
      values (main E argv).trace = values (generate E w).trace) ∧
    ((scan argv).2 = none → values (main E argv).trace = []) := by
  cases hscan : scan argv with
  | mk printed res =>
    constructor
    · intro w hw
      have hres : res = some w := hw
      subst hres
      rw [main_of_scan E hscan, values_append,
        (calls_of_printed printed (reaches_printed (scan_ok_reaches hscan))).2]
      rfl
    · intro hn
      have hres : res = none := hn
      subst hres
      obtain ⟨p, hp, hall⟩ := scan_exit_shape hscan
      rw [main_of_scan_exit E hscan, hp, values_append, (calls_of_printed p hall).2]
      rfl

theorem seeding_of_seed_mode {σ : Type} (E : Engine σ) {v1 v2 : Vars}
    (h : seed_mode v1 = seed_mode v2) : seeding E v1 = seeding E v2 := by
  unfold seed_mode at h
  unfold seeding
  cases h1 : v1.seed_array <;> cases h2 : v2.seed_array <;> rw [h1, h2] at h <;>
    simp only [SeedMode.scalar.injEq, SeedMode.array.injEq] at h
  · rw [h]
  · cases h
  · cases h
  · rw [h.1, h.2]

theorem emit_congr {σ : Type} (E : Engine σ) {v1 v2 : Vars} (bs : Int) (s : σ)
    (hbit : v1.bit = v2.bit) (heach : v1.each = 0 ↔ v2.each = 0) (hcount : v1.count = v2.count) :
    emit E v1 bs s = emit E v2 bs s := by
  unfold emit
  rw [hbit, hcount]
  by_cases h : v2.each = 0
  · rw [if_neg (not_not.mpr (heach.mpr h)), if_neg (not_not.mpr h)]
  · rw [if_pos (fun h1 => h (heach.mp h1)), if_pos h]

theorem generate_congr {σ : Type} (E : Engine σ) {v1 v2 : Vars}
    (hseed : seed_mode v1 = seed_mode v2) (hbit : v1.bit = v2.bit)
    (heach : v1.each = 0 ↔ v2.each = 0) (hcount : v1.count = v2.count) :
    generate E v1 = generate E v2 := by
  unfold generate
  rw [hbit, hcount, seeding_of_seed_mode E hseed]
  cases resolve v2.count v2.bit E.min_array_size32 E.min_array_size64 with
  | error report => rfl
  | ok bs =>
    simp only
    rw [emit_congr E bs _ hbit heach hcount]

theorem scan_body_frame (arg : String) (nxt : Option String) (v : Vars) (s : Int) :
    (∀ out, scan_body arg nxt v = Step.exit out →
      scan_body arg nxt { v with seed := s } = Step.exit out) ∧
    (∀ out v1 skip, scan_body arg nxt v = Step.next out v1 skip →
      ∃ s1, scan_body arg nxt { v with seed := s } =
        Step.next out { v1 with seed := s1 } skip) := by
  unfold scan_body
  cases nxt with
  | none =>
    constructor
    · intro out h
      simp only at h
      split_ifs at h
    · intro out v1 skip h
      simp only at h ⊢
      split_ifs at h ⊢ <;> simp only [Step.next.injEq] at h <;> obtain ⟨h1, h2, h3⟩ := h <;>
        subst h1 h2 h3 <;> exact ⟨s, rfl⟩
  | some a1 =>
    constructor
    · intro out h
      simp only at h ⊢
      split_ifs at h ⊢
      exact h
    · intro out v1 skip h
      simp only at h ⊢
      split_ifs at h ⊢ <;> simp only [Step.next.injEq] at h <;> obtain ⟨h1, h2, h3⟩ := h <;>
        subst h1 h2 h3
      · exact ⟨s, rfl⟩
      · exact ⟨atoi a1, rfl⟩
      · exact ⟨s, rfl⟩
      · exact ⟨s, rfl⟩
      · exact ⟨s, rfl⟩
      · exact ⟨s, rfl⟩

theorem scan_from_frame (l : List String) :
    ∀ (skip : Bool) (v : Vars) (s : Int),
      (scan_from skip l { v with seed := s }).1 = (scan_from skip l v).1 ∧
      ((scan_from skip l v).2 = none → (scan_from skip l { v with seed := s }).2 = none) ∧
      (∀ w, (scan_from skip l v).2 = some w →
        ∃ s1, (scan_from skip l { v with seed := s }).2 = some { w with seed := s1 }) := by
  induction l with
  | nil =>
    intro skip v s
    refine ⟨by simp [scan_from], ?_, ?_⟩
    · intro h
      simp [scan_from] at h
    · intro w hw
      have hvw : v = w := by simpa [scan_from] using hw
      subst hvw
      exact ⟨s, by simp [scan_from]⟩
  | cons arg rest ih =>
    intro skip v s
    cases skip with
    | true =>
      have := ih false v s
      simpa [scan_from] using this
    | false =>
      obtain ⟨f1, f2⟩ := scan_body_frame arg rest.head? v s
      cases hstep : scan_body arg rest.head? v with
      | exit out =>
        have hstep2 := f1 out hstep
        simp [scan_from, hstep, hstep2]
      | next out v1 skip1 =>
        obtain ⟨s1, hstep2⟩ := f2 out v1 skip1 hstep
        obtain ⟨i1, i2, i3⟩ := ih skip1 v1 s1
        simp only [scan_from, hstep, hstep2]
        exact ⟨by rw [i1], i2, i3⟩

theorem seed_mode_of_array {v : Vars} (s : Int) (h : v.seed_array ≠ none) :
    seed_mode { v with seed := s } = seed_mode v := by
  unfold seed_mode
  cases hv : v.seed_array with
  | none => exact absurd hv h
  | some key => simp only [hv]

theorem scan_body_no_skip {arg h1 : String} {v v1 : Vars} {out : List Event}
    (h : scan_body arg (some h1) v = Step.next out v1 false) :
    (∀ h2, scan_body arg (some h2) v = Step.next out v1 false) ∧
    (arg ≠ "--seed-array" → scan_body arg none v = Step.next out v1 false) := by
  unfold scan_body at h
  simp only at h
  split_ifs at h with c1 c2 c3 c4 c5 c6 <;> simp only [Step.next.injEq] at h
  · exact absurd h.2.2 (by decide)
  · exact absurd h.2.2 (by decide)
  · obtain ⟨ho, hv, _⟩ := h
    subst ho hv
    exact ⟨fun h2 => by simp [scan_body, c1, c2, c3], fun hne => absurd c3 hne⟩
  · exact absurd h.2.2 (by decide)
  · obtain ⟨ho, hv, _⟩ := h
    subst ho hv
    exact ⟨fun h2 => by simp [scan_body, c1, c2, c3, c4, c6],
      fun _ => by simp [scan_body, c6]⟩
  · obtain ⟨ho, hv, _⟩ := h
    subst ho hv
    exact ⟨fun h2 => by simp [scan_body, c1, c2, c3, c4, c6],
      fun _ => by simp [scan_body, c6]⟩

theorem reaches_swap_suffix (pre s1 s2 : List String) (hs1 : s1 ≠ [])
    (H : s2 ≠ [] ∨ ¬ ∃ v0 p0, Reaches (pre ++ s1) ("--seed-array" :: s1) v0 p0)
    {l : List String} {v : Vars} {p : List Event} (hr : Reaches (pre ++ s1) l v p) :
    ∀ m, l = m ++ s1 → Reaches (pre ++ s2) (m ++ s2) v p := by
  induction hr with
  | start =>
    intro m hm
    have hpm : pre = m := List.append_cancel_right hm
    subst hpm
    exact Reaches.start
  | @pass arg rest v v1 printed out skip hr0 hstep ih =>
    intro m hm
    cases skip with
    | false =>
      have hrest : rest = m ++ s1 := by simpa using hm
      subst hrest
      have ih2 := ih (arg :: m) rfl
      have hstep2 : scan_body arg (m ++ s2).head? v = Step.next out v1 false := by
        cases m with
        | nil =>
          cases s1 with
          | nil => exact absurd rfl hs1
          | cons u r =>
            have hstep1 : scan_body arg (some u) v = Step.next out v1 false := by
              simpa using hstep
            cases s2 with
            | nil =>
              rcases H with h | h
              · exact absurd rfl h
              · have hne : arg ≠ "--seed-array" := by
                  intro heq
                  subst heq
                  exact h ⟨v, printed, by simpa using hr0⟩
                simpa using (scan_body_no_skip hstep1).2 hne
            | cons u2 r2 => simpa using (scan_body_no_skip hstep1).1 u2
        | cons b m1 => simpa using hstep
      have := Reaches.pass ih2 hstep2
      simpa using this
    | true =>
      cases rest with
      | nil =>
        have : s1 = [] := by
          have h0 : ([] : List String) = m ++ s1 := by simpa using hm
          exact (List.append_eq_nil.mp h0.symm).2
        exact absurd this hs1
      | cons b t =>
        have ht : t = m ++ s1 := by simpa using hm
        subst ht
        have ih2 := ih (arg :: b :: m) rfl
        have hstep2 : scan_body arg ((b :: m) ++ s2).head? v = Step.next out v1 true := by
          simpa using hstep
        have := Reaches.pass ih2 hstep2
        simpa using this

theorem values_generate_engine {σ : Type} (E : Engine σ) (v : Vars)
    (hin : v.each ≠ 0 ∨ v.count ≤ buffer_size v.count E.min_array_size32) :
    ∀ x ∈ values (generate E v).trace, x ≠ none := by
  intro x hx
  cases hres : resolve v.count v.bit E.min_array_size32 E.min_array_size64 with
  | error report =>
    rw [generate_of_error E v hres] at hx
    obtain ⟨a, b, hab⟩ := resolve_error_eq hres
    subst hab
    simp [values] at hx
  | ok bs =>
    have hbs := resolve_ok_eq hres
    rw [values_generate_of_ok E v hres] at hx
    by_cases heach : v.each = 0
    · have hle : v.count ≤ bs := by
        rcases hin with h | h
        · exact absurd heach h
        · rw [hbs]
          exact h
      have hn : v.count.toNat ≤ bs.toNat := by omega
      by_cases h32 : v.bit = 32
      · have hv := ((values_bulk_in_bounds E v bs hres heach hn).1 h32).1
        rw [values_generate_of_ok E v hres] at hv
        rw [hv] at hx
        obtain ⟨y, _, hy⟩ := List.mem_map.mp hx
        rw [← hy]
        exact Option.some_ne_none y
      · by_cases h64 : v.bit = 64
        · have hv := ((values_bulk_in_bounds E v bs hres heach hn).2 h64).1
          rw [values_generate_of_ok E v hres] at hv
          rw [hv] at hx
          obtain ⟨y, _, hy⟩ := List.mem_map.mp hx
          rw [← hy]
          exact Option.some_ne_none y
        · simp [emit, heach, h32, h64, values] at hx
    · by_cases h32 : v.bit = 32
      · rw [(values_emit_each E v bs _ heach).1 h32] at hx
        obtain ⟨y, _, hy⟩ := List.mem_map.mp hx
        rw [← hy]
        exact Option.some_ne_none y
      · by_cases h64 : v.bit = 64
        · rw [(values_emit_each E v bs _ heach).2 h64] at hx
          obtain ⟨y, _, hy⟩ := List.mem_map.mp hx
          rw [← hy]
          exact Option.some_ne_none y
        · simp [emit, heach, h32, h64, values] at hx

/-- C13 as stated fails in its clause on unrecognized arguments.  In
`prog -e --seed-array x` the argument `x` is no option spelling and is
reported as an unknown option, yet it is what lets `--seed-array` count: the
run seeds by array, while `prog -e --seed-array` without it seeds with the
scalar 0, and on the counter engine the value printed differs. -/
theorem unknown_argument_changes_values :
    "x" ∉ option_spellings ∧
    Event.unknown_option "x" ∈ (main counter ["prog", "-e", "--seed-array", "x"]).trace ∧
    calls (main counter ["prog", "-e", "--seed-array", "x"]).trace =
      [Event.init_by_array fixed_seed_array 4, Event.genrand_uint32] ∧
    calls (main counter ["prog", "-e", "--seed-array"]).trace =
      [Event.init_gen_rand 0, Event.genrand_uint32] ∧
    values (main counter ["prog", "-e", "--seed-array", "x"]).trace = [some 8589934590] ∧
    values (main counter ["prog", "-e", "--seed-array"]).trace = [some 0] := by
  refine ⟨by decide, by decide, by decide, by decide, by decide, by decide⟩

/-- C13 amended: on plans that read no word outside the bulk buffer
(per-value strategy, or a count not above the buffer size) the values a run
prints are a function of the plan the scan ends with, and all of them are
values of the engine.  Two argument lists whose scans end with equal seed
mode, width, strategy and count print the same values on the same engine.
Two argument lists that differ only in the value given to a `-s`/`--seed`
the loop comes to print the same values when the scan ends in seed-array
mode.  Removing an argument that is no option spelling and that the loop
comes to leaves the values as they are, unless it is the last argument and
stands right after a `--seed-array` the loop comes to. -/
theorem plan_determines_values {σ : Type} (E : Engine σ) :
    (∀ argv1 argv2 p1 p2 v1 v2, scan argv1 = (p1, some v1) → scan argv2 = (p2, some v2) →
      seed_mode v1 = seed_mode v2 → v1.bit = v2.bit → (v1.each = 0 ↔ v2.each = 0) →
      v1.count = v2.count →
      (v1.each ≠ 0 ∨ v1.count ≤ buffer_size v1.count E.min_array_size32) →
      values (main E argv1).trace = values (main E argv2).trace ∧
      ∀ x ∈ values (main E argv1).trace, x ≠ none) ∧
    (∀ pre a val1 val2 rest v p p1 w1,
      Reaches (pre ++ a :: val1 :: rest) (a :: val1 :: rest) v p →
      (a = "-s" ∨ a = "--seed") → scan (pre ++ a :: val1 :: rest) = (p1, some w1) →
      w1.seed_array ≠ none →
      (w1.each ≠ 0 ∨ w1.count ≤ buffer_size w1.count E.min_array_size32) →
      values (main E (pre ++ a :: val1 :: rest)).trace =
        values (main E (pre ++ a :: val2 :: rest)).trace ∧
      ∀ x ∈ values (main E (pre ++ a :: val1 :: rest)).trace, x ≠ none) ∧
    (∀ pre u rest v p,
      Reaches (pre ++ u :: rest) (u :: rest) v p → u ∉ option_spellings →
      (rest ≠ [] ∨
        ¬ ∃ v0 p0, Reaches (pre ++ u :: rest) ("--seed-array" :: u :: rest) v0 p0) →
      (∀ p1 w, scan (pre ++ u :: rest) = (p1, some w) →
        w.each ≠ 0 ∨ w.count ≤ buffer_size w.count E.min_array_size32) →
      values (main E (pre ++ u :: rest)).trace = values (main E (pre ++ rest)).trace ∧
      ∀ x ∈ values (main E (pre ++ u :: rest)).trace, x ≠ none) := by
  refine ⟨?_, ?_, ?_⟩
  · intro argv1 argv2 p1 p2 v1 v2 h1 h2 hseed hbit heach hcount hin
    rw [(values_main_of_scan E).1 v1 (by rw [h1]), (values_main_of_scan E).1 v2 (by rw [h2]),
      generate_congr E hseed hbit heach hcount]
    refine ⟨rfl, ?_⟩
    rw [← generate_congr E hseed hbit heach hcount]
    exact values_generate_engine E v1 hin
  · intro pre a val1 val2 rest v p p1 w1 hr1 ha hscan harr hin
    have hr2 : Reaches (pre ++ a :: val2 :: rest) (a :: val2 :: rest) v p :=
      reaches_swap_suffix pre (a :: val1 :: rest) (a :: val2 :: rest)
        (List.cons_ne_nil _ _) (Or.inl (List.cons_ne_nil _ _)) hr1 [] rfl
    have hstep : ∀ val : String, scan_body a (val :: rest).head? v =
        Step.next [] { v with seed := atoi val } true := by
      intro val
      rcases ha with rfl | rfl <;> simp [scan_body]
    have hw1 := scan_result_of_reaches hr1 hscan
    rw [scan_from_cons_next (hstep val1)] at hw1
    simp only [cond_true, List.tail_cons] at hw1
    obtain ⟨s1, hw2⟩ := (scan_from_frame rest false { v with seed := atoi val1 }
      (atoi val2)).2.2 w1 hw1
    have hscan2 : (scan (pre ++ a :: val2 :: rest)).2 = some { w1 with seed := s1 } := by
      rw [scan_of_reaches hr2, scan_from_cons_next (hstep val2)]
      simp only [cond_true, List.tail_cons]
      exact hw2
    rw [(values_main_of_scan E).1 w1 (by rw [hscan]),
      (values_main_of_scan E).1 _ hscan2]
    rw [generate_congr E (seed_mode_of_array s1 harr).symm rfl Iff.rfl rfl]
    refine ⟨rfl, ?_⟩
    rw [← generate_congr E (seed_mode_of_array s1 harr).symm rfl Iff.rfl rfl]
    exact values_generate_engine E w1 hin
  · intro pre u rest v p hr1 hu hlast hin
    have hr2 : Reaches (pre ++ rest) rest v p :=
      reaches_swap_suffix pre (u :: rest) rest (List.cons_ne_nil _ _) hlast hr1 [] rfl
    have hstep : scan_body u rest.head? v = Step.next [Event.unknown_option u] v false :=
      scan_body_unknown rest.head? v hu
    have h1 : (scan (pre ++ u :: rest)).2 = (scan_from false rest v).2 := by
      rw [scan_of_reaches hr1, scan_from_cons_next hstep]
      rfl
    have h2 : (scan (pre ++ rest)).2 = (scan_from false rest v).2 := by
      rw [scan_of_reaches hr2]
    cases hres : (scan_from false rest v).2 with
    | none =>
      rw [(values_main_of_scan E).2 (by rw [h1, hres]),
        (values_main_of_scan E).2 (by rw [h2, hres])]
      exact ⟨rfl, fun x hx => by cases hx⟩
    | some w =>
      rw [(values_main_of_scan E).1 w (by rw [h1, hres]),
        (values_main_of_scan E).1 w (by rw [h2, hres])]
      refine ⟨rfl, values_generate_engine E w ?_⟩
      cases hscan : scan (pre ++ u :: rest) with
      | mk p1 res =>
        have hres1 : res = some w := by
          rw [hscan] at h1
          rw [← hres]
          exact h1
        subst hres1
        exact hin p1 w hscan

theorem plan_determines_values_witness :
    (values (main counter ["prog", "-n", "3", "--seed", "4"]).trace =
        values (main counter ["-s", "4", "what", "-n", "3"]).trace ∧
      ∀ x ∈ values (main counter ["prog", "-n", "3", "--seed", "4"]).trace, x ≠ none) ∧
    (values (main counter (["prog", "-n", "3"] ++ "x" :: ["-e"])).trace =
        values (main counter (["prog", "-n", "3"] ++ ["-e"])).trace ∧
      ∀ x ∈ values (main counter (["prog", "-n", "3"] ++ "x" :: ["-e"])).trace, x ≠ none) :=
  ⟨(plan_determines_values counter).1 ["prog", "-n", "3", "--seed", "4"]
      ["-s", "4", "what", "-n", "3"] [Event.unknown_option "prog"]
      [Event.unknown_option "what"] ⟨3, 4, 32, 0, none, 0⟩ ⟨3, 4, 32, 0, none, 0⟩
      (by decide) (by decide) rfl rfl Iff.rfl rfl (Or.inr (by decide)),
   (plan_determines_values counter).2.2 ["prog", "-n", "3"] "x" ["-e"] ⟨3, 0, 32, 0, none, 0⟩
      [Event.unknown_option "prog"]
      (@Reaches.pass _ "-n" ["3", "x", "-e"] Vars.init ⟨3, 0, 32, 0, none, 0⟩
        [Event.unknown_option "prog"] [] true
        (@Reaches.pass _ "prog" ["-n", "3", "x", "-e"] Vars.init Vars.init
          [] [Event.unknown_option "prog"] false Reaches.start (by decide))
        (by decide))
      (by decide) (Or.inl (by decide))
      (fun p1 w h => by
        have h2 : scan (["prog", "-n", "3"] ++ "x" :: ["-e"]) =
            ([Event.unknown_option "prog", Event.unknown_option "x"],
              some ⟨3, 0, 32, 1, none, 0⟩) := by decide
        rw [h2] at h
        have hw : w = ⟨3, 0, 32, 1, none, 0⟩ := by
          have := (Prod.mk.inj h).2
          exact (Option.some.inj this).symm
        rw [hw]
        exact Or.inl (by decide))⟩

/-! ## The seed-array option -/

/-- C17 as stated fails.  In `prog --seed-array --seed-array` the last
argument is `--seed-array` and is reported as an unknown option, yet the run
seeds by array and not by the scalar seed, the first occurrence having
selected that.  In `prog -n --seed-array` the last argument is taken as the
value of `-n` and is not reported at all. -/
theorem seed_array_last_yet_array_mode :
    (main counter ["prog", "--seed-array", "--seed-array"]).trace.take 4 =
      [Event.unknown_option "prog", Event.unknown_option "--seed-array",
        Event.header "counter" 32, Event.init_by_array fixed_seed_array 4] ∧
    calls (main counter ["prog", "--seed-array", "--seed-array"]).trace =
      [Event.init_by_array fixed_seed_array 4, Event.fill_array32 624] ∧
    (main counter ["prog", "-n", "--seed-array"]).trace =
      [Event.unknown_option "prog", Event.header "counter" 32, Event.init_gen_rand 0,
        Event.fill_array32 624] := by
  refine ⟨by decide, by decide, by decide⟩

/-- C17 amended: when the loop comes to `--seed-array` as the last argument
it reports it as an unknown option and changes no variable, so the run goes
on with the variables as they were: the seed array is unset, and the scalar
seed used, exactly when the loop came to no `--seed-array` with a next
argument before.  When the loop comes to `--seed-array` with a next argument
it sets the seed array to the fixed four words with size 4 and goes on to
scan that next argument as an option in its own right; a scan that
completes then ends in seed-array mode. -/
theorem seed_array_peeks_next {σ : Type} (E : Engine σ) (argv : List String) :
    (∀ v p, Reaches argv ["--seed-array"] v p →
      scan argv = (p ++ [Event.unknown_option "--seed-array"], some v) ∧
      main E argv =
        { trace := (p ++ [Event.unknown_option "--seed-array"]) ++ (generate E v).trace,
          exit := (generate E v).exit } ∧
      (v.seed_array = none ↔
        ¬ ∃ b t v1 p1, Reaches argv ("--seed-array" :: b :: t) v1 p1) ∧
      (v.seed_array = none → seed_mode v = SeedMode.scalar v.seed)) ∧
    (∀ b rest v p, Reaches argv ("--seed-array" :: b :: rest) v p →
      Reaches argv (b :: rest)
        { v with seed_array := some fixed_seed_array, seed_array_size := 4 } p ∧
      (∀ printed w, scan argv = (printed, some w) →
        seed_mode w = SeedMode.array fixed_seed_array 4)) := by
  constructor
  · intro v p hr
    have hstep : scan_body "--seed-array" ([] : List String).head? v =
        Step.next [Event.unknown_option "--seed-array"] v false := by
      simp [scan_body]
    have hscan : scan argv = (p ++ [Event.unknown_option "--seed-array"], some v) := by
      rw [scan_of_reaches hr, scan_from_cons_next hstep]
      rfl
    refine ⟨hscan, main_of_scan E hscan, ⟨?_, ?_⟩, ?_⟩
    · rintro hnone ⟨b, t, v1, p1, hr1⟩
      have := (scan_array_of_reaches hr1 hscan).1
      rw [hnone] at this
      cases this
    · intro hno
      have horigin := scan_from_origin argv argv.length argv Vars.init [] v (le_refl _)
        Reaches.start (by unfold scan at hscan; rw [hscan])
      rcases horigin.2 with ⟨h, _⟩ | hex
      · rw [h]
        rfl
      · exact absurd hex hno
    · intro hnone
      simp only [seed_mode, hnone]
  · intro b rest v p hr
    have hstep : scan_body "--seed-array" (b :: rest).head? v =
        Step.next [] { v with seed_array := some fixed_seed_array, seed_array_size := 4 }
          false := by
      simp [scan_body, fixed_seed_array]
    constructor
    · have := Reaches.pass hr hstep
      simpa using this
    · intro printed w hscan
      obtain ⟨h1, h2⟩ := scan_array_of_reaches hr hscan
      simp only [seed_mode, h1, h2]

theorem seed_array_peeks_next_witness :
    (Reaches ["prog", "--seed-array", "-e"] ["-e"] ⟨1, 0, 32, 0, some fixed_seed_array, 4⟩
        [Event.unknown_option "prog"] ∧
      (∀ printed w, scan ["prog", "--seed-array", "-e"] = (printed, some w) →
        seed_mode w = SeedMode.array fixed_seed_array 4)) ∧
    calls (main counter ["prog", "--seed-array", "-e"]).trace =
      [Event.init_by_array fixed_seed_array 4, Event.genrand_uint32] :=
  ⟨(seed_array_peeks_next counter ["prog", "--seed-array", "-e"]).2 "-e" [] Vars.init
      [Event.unknown_option "prog"]
      (@Reaches.pass _ "prog" ["--seed-array", "-e"] Vars.init Vars.init
        [] [Event.unknown_option "prog"] false Reaches.start (by decide)),
   by decide⟩

end SfmtMain
